import Mathlib

/-!
Verification of the maze generator / greedy maze solver program (`maze.py`).

The program is shallowly embedded: the mutable Python objects (`Maze`,
`MazeSolver`, `MazeGenerator`) become immutable Lean structures, each mutating
method becomes a function returning the updated state, Python exceptions become
`Except`/`Option` results, and `float('inf')` distances become `none` in
`Option Nat`.  Python list indexing (which resolves negative indices and raises
`IndexError` otherwise) is modelled by `pyIdx`.  The two unbounded loops of the
source (the BFS `while queue` loop and the recursive carver) are written with an
explicit fuel parameter; the fuel chosen is an upper bound on the number of loop
iterations (proved for the BFS below), so the embedded functions agree with the
source on all inputs considered.
-/

/-- Positions are `(row, col)` pairs of Python ints. -/
abbrev Pos : Type := Int × Int

/-- Embeds `MazeNode.__init__` (maze.py:22-27): a grid cell. -/
structure MazeNode where
  traversable : Bool
  is_start : Bool
  is_end : Bool
  visited : Bool
deriving DecidableEq, Repr

/-- Embeds the `Maze` object state (maze.py:29-35). -/
structure Maze where
  maze : List (List MazeNode)
  rows : Nat
  cols : Nat
  start_node : Option Pos
  end_node : Option Pos
deriving DecidableEq, Repr

/-- Embeds `Maze.create_maze` (maze.py:37-38): each character that is not `'#'`
becomes a traversable node. -/
def Maze.create_maze (layout : List String) : List (List MazeNode) :=
  layout.map (fun row => row.data.map (fun cell => ⟨cell != '#', false, false, false⟩))

/-- Embeds `Maze.__init__` (maze.py:30-35): note that no validation whatsoever
is performed; `rows` is the number of layout rows and `cols` the length of the
first row (0 for an empty layout). -/
def Maze.init (layout : List String) : Maze :=
  let mz := Maze.create_maze layout
  { maze := mz
    rows := mz.length
    cols := if mz.length > 0 then (mz.headI).length else 0
    start_node := none
    end_node := none }

/-- Python list index resolution: an index `i` with `-len ≤ i < len` resolves
(negative indices count from the end); anything else raises `IndexError`,
modelled as `none`. -/
def pyIdx (len : Nat) (i : Int) : Option Nat :=
  if 0 ≤ i ∧ i < (len : Int) then some i.toNat
  else if -(len : Int) ≤ i ∧ i < 0 then some (i + len).toNat
  else none

/-- Embeds the in-place cell mutation `grid[row][col] ← f grid[row][col]` with
Python indexing semantics; `none` models an `IndexError`. -/
def pyModify2D (g : List (List MazeNode)) (r c : Int) (f : MazeNode → MazeNode) :
    Option (List (List MazeNode)) := do
  let ri ← pyIdx g.length r
  let row ← g.get? ri
  let ci ← pyIdx row.length c
  let cell ← row.get? ci
  pure (g.set ri (row.set ci (f cell)))

/-- Embeds the read `grid[row][col]` with Python indexing semantics. -/
def pyGet2D (g : List (List MazeNode)) (r c : Int) : Option MazeNode := do
  let ri ← pyIdx g.length r
  let row ← g.get? ri
  let ci ← pyIdx row.length c
  row.get? ci

/-- Embeds `Maze.set_start` (maze.py:40-43).  The cell write on line 41 is
unguarded (it may raise `IndexError`, modelled as `none`, or silently hit a
negatively-resolved cell), while the recording of `start_node` on lines 42-43
is guarded by an in-bounds check. -/
def Maze.set_start (m : Maze) (row col : Int) : Option Maze := do
  let mz ← pyModify2D m.maze row col (fun c => { c with is_start := true })
  pure { m with
    maze := mz
    start_node :=
      if 0 ≤ row ∧ row < (m.rows : Int) ∧ 0 ≤ col ∧ col < (m.cols : Int) then
        some (row, col)
      else m.start_node }

/-- Embeds `Maze.set_end` (maze.py:45-48), symmetric to `set_start`. -/
def Maze.set_end (m : Maze) (row col : Int) : Option Maze := do
  let mz ← pyModify2D m.maze row col (fun c => { c with is_end := true })
  pure { m with
    maze := mz
    end_node :=
      if 0 ≤ row ∧ row < (m.rows : Int) ∧ 0 ≤ col ∧ col < (m.cols : Int) then
        some (row, col)
      else m.end_node }

/-- The fixed direction enumeration `[(0, 1), (1, 0), (0, -1), (-1, 0)]`
(right, down, left, up) used by the solver (maze.py:52 and maze.py:115). -/
def dirList : List Pos := [(0, 1), (1, 0), (0, -1), (-1, 0)]

/-- The in-bounds test `0 <= r < rows and 0 <= c < cols`. -/
def inBB (m : Maze) (p : Pos) : Bool :=
  decide (0 ≤ p.1) && decide (p.1 < (m.rows : Int)) &&
  decide (0 ≤ p.2) && decide (p.2 < (m.cols : Int))

/-- Total cell lookup on a grid, used for reads that the source guards with an
in-bounds check first (so the default is never reached on rectangular grids). -/
def gridNode (g : List (List MazeNode)) (p : Pos) : MazeNode :=
  (((g.get? p.1.toNat).getD []).get? p.2.toNat).getD ⟨false, false, false, false⟩

/-- Total cell lookup on a maze. -/
def nodeAt (m : Maze) (p : Pos) : MazeNode := gridNode m.maze p

/-- Embeds `Maze.get_available_directions` (maze.py:50-57): the directions of
`dirList`, in order, whose target cell is in-bounds and traversable. -/
def Maze.get_available_directions (m : Maze) (row col : Int) : List Pos :=
  dirList.filter (fun d =>
    inBB m (row + d.1, col + d.2) && (nodeAt m (row + d.1, col + d.2)).traversable)

/-- Embeds `add_tuples` (maze.py:19-20) for coordinate pairs. -/
def add_tuples (a b : Pos) : Pos := (a.1 + b.1, a.2 + b.2)

/-- The neighbor entries pushed by one BFS iteration (maze.py:115-121): each
direction whose target is in-bounds, traversable and not in the visited set,
paired with `distance + 1`. -/
def bfsNext (m : Maze) (r c : Int) (dist : Nat) (vis : List Pos) : List (Pos × Nat) :=
  dirList.filterMap (fun d =>
    if inBB m (r + d.1, c + d.2) && (nodeAt m (r + d.1, c + d.2)).traversable &&
        !(vis.contains (r + d.1, c + d.2)) then
      some ((r + d.1, c + d.2), dist + 1)
    else none)

/-- The `while queue` loop of `calculate_distance_to_end` (maze.py:104-123),
with explicit fuel.  `some (some d)` models `return distance`, `some none`
models falling through to `return float('inf')`, and `none` is fuel exhaustion
(shown below never to occur for the fuel used by `calculate_distance_to_end`).
Note the source pops from the left, tests the goal before the visited check,
and inserts into the visited set before pushing neighbors. -/
def bfsLoop (m : Maze) : Nat → List (Pos × Nat) → List Pos → Option (Option Nat)
  | _, [], _ => some none
  | 0, _ :: _, _ => none
  | f + 1, (p, dist) :: rest, vis =>
    if m.end_node = some p then some (some dist)
    else if vis.contains p then bfsLoop m f rest vis
    else bfsLoop m f (rest ++ bfsNext m p.1 p.2 dist (p :: vis)) (p :: vis)

/-- Embeds `MazeSolver.calculate_distance_to_end` (maze.py:100-123): BFS from
`(sr, sc)` toward `end_node` with a query-local visited set.  `none` models
`float('inf')`.  The fuel `5 * rows * cols + 2` strictly exceeds the number of
loop iterations (theorem `bfsLoop_no_fuel_exhaustion`), so the fuel branch is
never taken when the start cell is in bounds. -/
def calculate_distance_to_end (m : Maze) (sr sc : Int) : Option Nat :=
  match bfsLoop m (5 * m.rows * m.cols + 2) [((sr, sc), 0)] [] with
  | some r => r
  | none => none

/-- Comparison of `Option Nat` distances with `none` playing `float('inf')`:
`a < b` with `inf` larger than every finite value and `inf < inf` false. -/
def optLt : Option Nat → Option Nat → Bool
  | some a, some b => a < b
  | some _, none => true
  | none, _ => false

/-- `a ≤ b` on `Option Nat` distances with `none` as infinity. -/
def optLe : Option Nat → Option Nat → Bool
  | _, none => true
  | none, some _ => false
  | some a, some b => a ≤ b

/-- Errors the solver can raise: `noAvailableMove` is the
`Exception("No available directions to move.")` of maze.py:87; `indexError` and
`typeError` model the Python errors from an unguarded subscript or from
unpacking `None`. -/
inductive PyErr where
  | noAvailableMove
  | indexError
  | typeError
deriving DecidableEq, Repr

/-- Embeds the `MazeSolver` object state (maze.py:59-64). -/
structure SState where
  maze : Maze
  current_pos : Option Pos
  facing : Nat
  solver : String
deriving DecidableEq, Repr

/-- Embeds `MazeSolver.__init__` (maze.py:60-64): note that no validation of
the `solver` strategy string is performed. -/
def MazeSolver.init (m : Maze) (sv : String) : SState :=
  { maze := m, current_pos := m.start_node, facing := 0, solver := sv }

/-- The `for direction in directions` loop of `A_star` (maze.py:74-82),
accumulating `least_dist` / `best_move` (initially `inf` / `None`).  Each
iteration re-reads the target cell unguarded (maze.py:76), which on the lists
produced from a rectangular layout always succeeds for directions coming from
`get_available_directions`. -/
def astarLoop (m : Maze) (cp : Pos) :
    List Pos → Option Nat → Option Pos → Except PyErr (Option Nat × Option Pos)
  | [], least, best => .ok (least, best)
  | d :: rest, least, best =>
    match pyGet2D m.maze (add_tuples cp d).1 (add_tuples cp d).2 with
    | none => .error .indexError
    | some cell =>
      if cell.traversable then
        if optLt (calculate_distance_to_end m (add_tuples cp d).1 (add_tuples cp d).2) least then
          astarLoop m cp rest
            (calculate_distance_to_end m (add_tuples cp d).1 (add_tuples cp d).2) (some d)
        else astarLoop m cp rest least best
      else astarLoop m cp rest least best

/-- Embeds `MazeSolver.A_star` (maze.py:70-87): evaluates all available
directions from `(row, col)`, and moves `current_pos` by the best one, or
raises `noAvailableMove` when no direction with a finite distance exists
(`best_move` stays `None`; all direction tuples are truthy in Python). -/
def A_star (s : SState) (row col : Int) : Except PyErr SState :=
  match s.current_pos with
  | none => .error .typeError
  | some cp =>
    match astarLoop s.maze cp (s.maze.get_available_directions row col) none none with
    | .error e => .error e
    | .ok (_, some mv) => .ok { s with current_pos := some (add_tuples cp mv) }
    | .ok (_, none) => .error .noAvailableMove

/-- Embeds `MazeSolver.find_move` (maze.py:66-68): dispatches on the strategy
string and silently does nothing for any strategy other than `"A*"`. -/
def find_move (s : SState) (row col : Int) : Except PyErr SState :=
  if s.solver = "A*" then A_star s row col else .ok s

/-- Embeds `MazeSolver.solve_step` (maze.py:89-98).  Returns the state after
the call together with the result: `.ok true` when `current_pos` equals
`end_node` (checked first, before any mutation), otherwise the current cell's
`visited` flag is set *before* `find_move` runs, so when `find_move` raises,
the returned state already carries that mutation. -/
def solve_step (s : SState) : SState × Except PyErr Bool :=
  if s.current_pos = s.maze.end_node then (s, .ok true)
  else
    match s.current_pos with
    | none => (s, .error .typeError)
    | some (row, col) =>
      match pyModify2D s.maze.maze row col (fun c => { c with visited := true }) with
      | none => (s, .error .indexError)
      | some mz =>
        let s1 : SState := { s with maze := { s.maze with maze := mz } }
        match find_move s1 row col with
        | .ok s2 => (s2, .ok false)
        | .error e => (s1, .error e)

/-- Runs `solve_step` up to `k` times from state `s` (the driver loops of
maze.py:191-197 and maze.py:212-213): `some (.ok ())` once a call returns
`True`, `some (.error e)` once a call raises, `none` if all `k` calls return
`False`. -/
def runSolve : Nat → SState → Option (Except PyErr Unit)
  | 0, _ => none
  | k + 1, s =>
    match solve_step s with
    | (_, .ok true) => some (.ok ())
    | (s2, .ok false) => runSolve k s2
    | (_, .error e) => some (.error e)

/-! ### The maze generator -/

/-- Generator grid state: the character grid of `MazeGenerator` together with a
counter of how many `random.shuffle` calls have been consumed so far. -/
structure GState where
  grid : List (List Char)
  k : Nat
deriving DecidableEq, Repr

/-- Read `self.maze[y][x]` in the generator (all reads are guarded by the
in-bounds test of maze.py:165 on the `height × width` grid). -/
def getCh (g : List (List Char)) (y x : Nat) : Char :=
  (((g.get? y).getD []).get? x).getD '#'

/-- Write `self.maze[y][x] = ch` in the generator (again only reached with
in-bounds indices). -/
def setCh (g : List (List Char)) (y x : Nat) (ch : Char) : List (List Char) :=
  g.set y (((g.get? y).getD []).set x ch)

/-- Embeds `MazeGenerator._carve_passages_from` (maze.py:159-168).  The
randomness of `random.shuffle` is made explicit: `σ k` is the shuffled
direction list produced by the `k`-th shuffle call.  The body of the recursive
call from `(cx, cy)` is the traversal of its shuffled list; entering a
direction whose 2-step target is an in-bounds wall carves the intermediate and
target cells and recurses from the target.  Fuel bounds the recursion depth
(the source recursion depth is at most 5 per carved cell, far below the fuel
`5 * width * height + 10` supplied by `generate`). -/
def carveDirs (σ : Nat → List (Int × Int)) (w h : Nat) :
    Nat → GState → Int → Int → List (Int × Int) → GState
  | 0, s, _, _, _ => s
  | _ + 1, s, _, _, [] => s
  | f + 1, s, cx, cy, (dx, dy) :: ds =>
    if 0 ≤ cx + dx * 2 ∧ cx + dx * 2 < (w : Int) ∧ 0 ≤ cy + dy * 2 ∧
        cy + dy * 2 < (h : Int) ∧
        getCh s.grid (cy + dy * 2).toNat (cx + dx * 2).toNat = '#' then
      carveDirs σ w h f
        (carveDirs σ w h f
          ⟨setCh (setCh s.grid (cy + dy).toNat (cx + dx).toNat ' ')
            (cy + dy * 2).toNat (cx + dx * 2).toNat ' ', s.k + 1⟩
          (cx + dx * 2) (cy + dy * 2) (σ s.k))
        cx cy ds
    else carveDirs σ w h f s cx cy ds

/-- Embeds `MazeGenerator.__init__` + `MazeGenerator.generate`
(maze.py:145-157): an all-wall `height × width` grid, carved from `(1, 1)`
(note the source never marks `(1, 1)` itself as open before carving), then
`maze[1][1] = 'S'` and `maze[height-2][width-2] = 'E'`, joined into strings. -/
def MazeGenerator.generate (w h : Nat) (σ : Nat → List (Int × Int)) : List String :=
  let s0 : GState := ⟨List.replicate h (List.replicate w '#'), 0⟩
  let s1 := carveDirs σ w h (5 * w * h + 10) { s0 with k := 1 } 1 1 (σ 0)
  let g2 := setCh s1.grid 1 1 'S'
  let g3 := setCh g2 (h - 2) (w - 2) 'E'
  g3.map (fun row => String.mk row)

instance {ε α : Type} [DecidableEq ε] [DecidableEq α] : DecidableEq (Except ε α) := fun a b =>
  match a, b with
  | .ok x, .ok y =>
    if h : x = y then .isTrue (by rw [h]) else .isFalse (fun hh => h (Except.ok.inj hh))
  | .error x, .error y =>
    if h : x = y then .isTrue (by rw [h]) else .isFalse (fun hh => h (Except.error.inj hh))
  | .ok _, .error _ => .isFalse (fun hh => Except.noConfusion hh)
  | .error _, .ok _ => .isFalse (fun hh => Except.noConfusion hh)

/-- Number of open (non-`'#'`) cells of a layout. -/
def openCount (layout : List String) : Nat :=
  (layout.map (fun row => (row.data.filter (fun ch => ch != '#')).length)).sum

/-- Whether both cells of a horizontally/vertically adjacent pair are open. -/
def openAt (layout : List String) (y x : Nat) : Bool :=
  ((((layout.get? y).map String.data).getD []).get? x).getD '#' != '#'

/-- Number of adjacent open-open pairs (horizontal plus vertical) of a
layout — the edge count of the open-cell adjacency graph. -/
def openEdges (layout : List String) : Nat :=
  let h := layout.length
  let w := (layout.headI).length
  ((List.range h).map (fun y =>
    ((List.range w).map (fun x =>
      (if openAt layout y x && openAt layout y (x + 1) && decide (x + 1 < w) then 1 else 0) +
      (if openAt layout y x && openAt layout (y + 1) x && decide (y + 1 < h) then 1 else 0))).sum)).sum

/-! ### Specification-side notions -/

/-- Well-formedness of a `Maze` value as produced from a rectangular layout:
the stored `rows`/`cols` fields describe the actual cell matrix.  `Maze.init`
establishes this whenever the layout rows all have equal length (the grid
invariant stated by the design). -/
def WFB (m : Maze) : Bool :=
  (m.maze.length == m.rows) && m.maze.all (fun row => row.length == m.cols)

/-- A cell is usable as a path cell: in bounds and traversable. -/
def okCellB (m : Maze) (q : Pos) : Bool :=
  inBB m q && (nodeAt m q).traversable

/-- One step of a path: `q` is 4-directionally adjacent to `p` and is an
in-bounds traversable cell (the cell stepped *onto* must be ok; the cell
stepped *from* need not be, matching the BFS, which never inspects the cell it
starts from). -/
def okStep (m : Maze) (p q : Pos) : Prop :=
  (∃ d ∈ dirList, q = add_tuples p d) ∧ okCellB m q = true

/-- `chainTo m p q n`: there is a 4-directionally-adjacent path of exactly `n`
steps from `p` to `q` all of whose cells after the first are in-bounds and
traversable. -/
def chainTo (m : Maze) : Pos → Pos → Nat → Prop
  | p, q, 0 => p = q
  | p, q, n + 1 => ∃ r, okStep m p r ∧ chainTo m r q n

/-- `reachesIn m p n`: the grid records an end position and there is a path of
`n` steps from `p` to it (through traversable cells). -/
def reachesIn (m : Maze) (p : Pos) (n : Nat) : Prop :=
  ∃ e, m.end_node = some e ∧ chainTo m p e n

/-- `d` is the length of a shortest path from `p` to the recorded end. -/
def minReach (m : Maze) (p : Pos) (d : Nat) : Prop :=
  reachesIn m p d ∧ ∀ n, reachesIn m p n → d ≤ n

/-- Two mazes with identical dimensions, end position and traversability —
i.e. equal up to the per-cell solving flags (`visited`, `is_start`, `is_end`).
Distance computation is invariant under this relation, which is the formal
rendering of "the BFS visited set is local to the query and independent of the
`Cell.visited` flags". -/
def EqTrav (m m2 : Maze) : Prop :=
  m.rows = m2.rows ∧ m.cols = m2.cols ∧ m.end_node = m2.end_node ∧
    ∀ q : Pos, (nodeAt m q).traversable = (nodeAt m2 q).traversable

/-- First-biased minimum of two `Option Nat` distances (`none` = infinity). -/
def optMin (a b : Option Nat) : Option Nat := if optLt b a then b else a

/-- Minimum distance value attained on a list of candidate directions
(`none` when the list is empty or all candidates have infinite distance). -/
def listMin (δ : Pos → Option Nat) : List Pos → Option Nat
  | [] => none
  | d :: ds => optMin (δ d) (listMin δ ds)

/-- Modelled from the spec: `d` is the *first* direction of the enumeration
`l` whose target attains the strictly smallest distance among all candidates —
`d` occurs in `l`, its distance is a lower bound for every candidate, and
every earlier candidate has strictly larger distance. -/
def FirstStrictMin (l : List Pos) (δ : Pos → Option Nat) (d : Pos) : Prop :=
  ∃ i : Fin l.length, l.get i = d ∧ (∀ x ∈ l, optLe (δ d) (δ x) = true) ∧
    ∀ j : Fin l.length, (j : Nat) < (i : Nat) → optLt (δ d) (δ (l.get j)) = true

/-- The candidate-ranking function one solver step uses at position `cp`:
the BFS distance of the cell one step in direction `d`. -/
def stepDist (m : Maze) (cp : Pos) (d : Pos) : Option Nat :=
  calculate_distance_to_end m (add_tuples cp d).1 (add_tuples cp d).2

/-! ### Concrete instances used as witnesses and counterexamples -/

/-- The identity shuffle outcome: `random.shuffle` leaves the direction list
unchanged on every call. -/
def sigId : Nat → List (Int × Int) := fun _ => [(0, 1), (1, 0), (0, -1), (-1, 0)]

/-- The 3×3 all-wall-ring layout of the start-equals-end scenario. -/
def mBase : Maze := Maze.init ["###", "# #", "###"]

/-- `mBase` with start recorded at `(1, 1)`. -/
def m3 : Maze := (mBase.set_start 1 1).getD (Maze.init [])

/-- `m3` with end also recorded at `(1, 1)` (start = end scenario). -/
def m3b : Maze := (m3.set_end 1 1).getD (Maze.init [])

/-- Solver for the start-equals-end scenario. -/
def st3 : SState := MazeSolver.init m3b "A*"

/-- A 1×1 maze with a single open cell, start `(0, 0)`, end never set. -/
def m1 : Maze := ((Maze.init [" "]).set_start 0 0).getD (Maze.init [])

/-- Fresh solver on `m1`: its first step raises `noAvailableMove`. -/
def st0 : SState := MazeSolver.init m1 "A*"

/-- State after the first (failing) step on `m1`: the single cell is already
visited, so a further failing step no longer changes any state. -/
def st1 : SState := (solve_step st0).1

/-- A 5×5 ring maze: open ring around a central wall, start `(1, 1)`,
end `(3, 3)`. -/
def m5 : Maze :=
  ((((Maze.init ["#####", "#   #", "# # #", "#   #", "#####"]).set_start 1 1).getD
      (Maze.init [])).set_end 3 3).getD (Maze.init [])

/-- Solver on `m5` with an unrecognized strategy string. -/
def stB : SState := MazeSolver.init m5 "BFS"

/-- Solver on `m5` with the implemented strategy. -/
def stA : SState := MazeSolver.init m5 "A*"

/-! ### Basic lemmas about Python indexing and the cell write -/

theorem pyIdx_of_inb {len : Nat} {i : Int} (h0 : 0 ≤ i) (h1 : i < (len : Int)) :
    pyIdx len i = some i.toNat := by
  unfold pyIdx
  rw [if_pos ⟨h0, h1⟩]

theorem pyIdx_some_lt {len : Nat} {i : Int} {j : Nat} (h : pyIdx len i = some j) :
    j < len := by
  unfold pyIdx at h
  by_cases h1 : 0 ≤ i ∧ i < (len : Int)
  · rw [if_pos h1] at h
    cases h
    omega
  · rw [if_neg h1] at h
    by_cases h2 : -(len : Int) ≤ i ∧ i < 0
    · rw [if_pos h2] at h
      cases h
      omega
    · rw [if_neg h2] at h
      cases h

theorem set_of_get? {α : Type} {l : List α} {i : Nat} {a : α} (h : l.get? i = some a) :
    l.set i a = l := by
  apply List.ext
  intro n
  by_cases hn : n = i
  · subst hn
    rw [List.get?_set_eq_of_lt]
    · exact h.symm
    · exact (List.get?_eq_some.mp h).1
  · exact List.get?_set_ne a l (fun hh => hn hh.symm)

/-- Full description of a successful unguarded cell write `maze[r][c].f` on a
well-formed maze whose indices resolve: the resulting grid, the mutated cell,
the untouched cells, preservation of well-formedness, and the no-op case. -/
theorem pyModify2D_resolved {m : Maze} (hwf : WFB m = true) {r c : Int} {ri ci : Nat}
    (hri : pyIdx m.rows r = some ri) (hci : pyIdx m.cols c = some ci)
    (f : MazeNode → MazeNode) :
    ∃ g2, pyModify2D m.maze r c f = some g2 ∧
      gridNode g2 ((ri : Int), (ci : Int)) = f (gridNode m.maze ((ri : Int), (ci : Int))) ∧
      (∀ q : Pos, ¬(q.1.toNat = ri ∧ q.2.toNat = ci) → gridNode g2 q = gridNode m.maze q) ∧
      WFB { m with maze := g2 } = true ∧
      (f (gridNode m.maze ((ri : Int), (ci : Int))) = gridNode m.maze ((ri : Int), (ci : Int)) →
        g2 = m.maze) := by
  unfold WFB at hwf
  rw [Bool.and_eq_true, beq_iff_eq, List.all_eq_true] at hwf
  obtain ⟨hlen, hall⟩ := hwf
  have hri' : ri < m.maze.length := by rw [hlen]; exact pyIdx_some_lt hri
  obtain ⟨row, hrow⟩ : ∃ row, m.maze.get? ri = some row := by
    rw [List.get?_eq_get hri']
    exact ⟨_, rfl⟩
  have hrowmem : row ∈ m.maze := List.get?_mem hrow
  have hrowlen : row.length = m.cols := by
    have := hall row hrowmem
    rwa [beq_iff_eq] at this
  have hci' : ci < row.length := by rw [hrowlen]; exact pyIdx_some_lt hci
  obtain ⟨cell, hcell⟩ : ∃ cell, row.get? ci = some cell := by
    rw [List.get?_eq_get hci']
    exact ⟨_, rfl⟩
  refine ⟨m.maze.set ri (row.set ci (f cell)), ?_, ?_, ?_, ?_, ?_⟩
  · unfold pyModify2D
    have hlen2 : m.maze.length = m.rows := hlen
    rw [hlen2, hri]
    simp only [Option.bind_eq_bind, Option.some_bind]
    rw [hrow]
    simp only [Option.some_bind]
    rw [hrowlen, hci]
    simp only [Option.some_bind]
    rw [hcell]
    simp only [Option.some_bind]
    rfl
  · unfold gridNode
    simp only [Int.toNat_ofNat]
    rw [List.get?_set_eq_of_lt _ hri', Option.getD_some,
      List.get?_set_eq_of_lt _ hci', Option.getD_some, hrow, Option.getD_some, hcell,
      Option.getD_some]
  · intro q hq
    unfold gridNode
    by_cases h1 : q.1.toNat = ri
    · have h2 : q.2.toNat ≠ ci := fun hh => hq ⟨h1, hh⟩
      rw [h1, List.get?_set_eq_of_lt _ hri', Option.getD_some, hrow, Option.getD_some,
        List.get?_set_ne _ _ (fun hh => h2 hh.symm)]
    · rw [List.get?_set_ne _ _ (fun hh => h1 hh.symm)]
  · unfold WFB
    rw [Bool.and_eq_true, beq_iff_eq, List.all_eq_true]
    constructor
    · simp only [List.length_set]
      exact hlen
    · intro row2 hrow2
      rcases List.mem_or_eq_of_mem_set hrow2 with h | h
      · exact hall row2 h
      · subst h
        rw [beq_iff_eq, List.length_set]
        exact hrowlen
  · intro hfix
    have hcellval : gridNode m.maze ((ri : Int), (ci : Int)) = cell := by
      unfold gridNode
      simp only [Int.toNat_ofNat]
      rw [hrow, Option.getD_some, hcell, Option.getD_some]
    rw [hcellval] at hfix
    rw [hfix, set_of_get? hcell, set_of_get? hrow]

theorem inBB_pyIdx {m : Maze} {p : Pos} (hin : inBB m p = true) :
    pyIdx m.rows p.1 = some p.1.toNat ∧ pyIdx m.cols p.2 = some p.2.toNat ∧
      ((p.1.toNat : Int), (p.2.toNat : Int)) = p := by
  unfold inBB at hin
  simp only [Bool.and_eq_true, decide_eq_true_eq] at hin
  obtain ⟨⟨⟨h1, h2⟩, h3⟩, h4⟩ := hin
  exact ⟨pyIdx_of_inb h1 h2, pyIdx_of_inb h3 h4,
    Prod.ext (Int.toNat_of_nonneg h1) (Int.toNat_of_nonneg h3)⟩

/-- `pyModify2D` succeeds exactly when both indices resolve (well-formed maze). -/
theorem pyModify2D_isSome {m : Maze} (hwf : WFB m = true) (r c : Int)
    (f : MazeNode → MazeNode) :
    (pyModify2D m.maze r c f).isSome =
      ((pyIdx m.rows r).isSome && (pyIdx m.cols c).isSome) := by
  cases hri : pyIdx m.rows r with
  | none =>
    have hlen : m.maze.length = m.rows := by
      unfold WFB at hwf
      rw [Bool.and_eq_true, beq_iff_eq] at hwf
      exact hwf.1
    unfold pyModify2D
    rw [hlen, hri]
    rfl
  | some ri =>
    cases hci : pyIdx m.cols c with
    | none =>
      unfold WFB at hwf
      rw [Bool.and_eq_true, beq_iff_eq, List.all_eq_true] at hwf
      obtain ⟨hlen, hall⟩ := hwf
      have hri' : ri < m.maze.length := by rw [hlen]; exact pyIdx_some_lt hri
      obtain ⟨row, hrow⟩ : ∃ row, m.maze.get? ri = some row := by
        rw [List.get?_eq_get hri']
        exact ⟨_, rfl⟩
      have hrowlen : row.length = m.cols := by
        have := hall row (List.get?_mem hrow)
        rwa [beq_iff_eq] at this
      unfold pyModify2D
      rw [hlen, hri]
      simp only [Option.bind_eq_bind, Option.some_bind, hrow, hrowlen, hci]
      rfl
    | some ci =>
      obtain ⟨g2, hg2, -⟩ := pyModify2D_resolved hwf hri hci f
      rw [hg2]
      rfl

/-! ### Claim C6: a step at the end position is the identity -/

theorem solve_step_end_eq (s : SState) (h : s.current_pos = s.maze.end_node) :
    solve_step s = (s, .ok true) := by
  unfold solve_step
  rw [if_pos h]

/-- C6: whenever the solver's current position equals the grid's recorded end
position, one call of `solve_step` returns `true` and leaves the entire state
(position, every cell flag, all grid state) unchanged — the equality test is
the very first action of `solve_step` and short-circuits everything else.  In
particular, when start equals end the very first step returns `true`. -/
theorem solve_step_at_end (s : SState) (h : s.current_pos = s.maze.end_node) :
    solve_step s = (s, .ok true) :=
  solve_step_end_eq s h

/-- Witness for `solve_step_at_end`: the 3×3 grid `["###", "# #", "###"]` with
start = end = `(1, 1)`; the first step immediately returns `true`. -/
theorem solve_step_at_end_witness :
    st3.current_pos = st3.maze.end_node ∧ solve_step st3 = (st3, .ok true) :=
  ⟨by decide, solve_step_at_end st3 (by decide)⟩

/-! ### Claim C7: `Maze.__init__` performs no validation -/

/-- C7 counterexample: constructing a grid from the ragged layout
`["##", "###"]` and from the empty layout does **not** fail — `Maze.__init__`
(maze.py:30-38) has no validation and no `InvalidLayoutError` exists anywhere
in the source; the ragged layout yields an ordinary `Maze` with `rows = 2`,
`cols = 2` (the first row's length), and the empty layout yields `rows = 0`,
`cols = 0`. -/
theorem ragged_and_empty_layouts_accepted :
    Maze.init ["##", "###"] =
      { maze := [[⟨false, false, false, false⟩, ⟨false, false, false, false⟩],
                 [⟨false, false, false, false⟩, ⟨false, false, false, false⟩,
                  ⟨false, false, false, false⟩]]
        rows := 2, cols := 2, start_node := none, end_node := none } ∧
    Maze.init [] = { maze := [], rows := 0, cols := 0, start_node := none, end_node := none } := by
  constructor
  · decide
  · decide

/-- C7 amended: `Maze.__init__` never fails; for every layout (ragged or
empty included) it returns a grid whose `rows` is the number of layout rows
and whose `cols` is the length of the first row (`0` for the empty layout),
with one cell per layout character. -/
theorem grid_construction_total (layout : List String) :
    (Maze.init layout).rows = layout.length ∧
    (Maze.init layout).cols = (if 0 < layout.length then layout.headI.length else 0) ∧
    (Maze.init layout).maze.length = layout.length := by
  refine ⟨?_, ?_, ?_⟩
  · unfold Maze.init Maze.create_maze
    simp
  · cases layout with
    | nil => rfl
    | cons a l =>
      have h2 : (Maze.init (a :: l)).cols = a.length := by
        simp only [Maze.init, Maze.create_maze, List.map_cons, List.length_cons, List.headI,
          List.length_map, gt_iff_lt, Nat.zero_lt_succ, if_true, ite_true]
        rfl
      rw [h2, List.length_cons, if_pos (Nat.succ_pos l.length)]
      rfl
  · unfold Maze.init Maze.create_maze
    simp

/-! ### Claim C8: the strategy string is never validated -/

/-- C8 counterexample: constructing a solver with the unrecognized strategy
string `"BFS"` succeeds (`MazeSolver.__init__`, maze.py:60-64, performs no
validation, so no `UnsupportedStrategy` error exists), and a subsequent step
silently does nothing: `find_move` returns without moving and `solve_step`
reports `false` with the position unchanged. -/
theorem unknown_strategy_silently_noops :
    stB.solver = "BFS" ∧
    find_move stB 1 1 = .ok stB ∧
    (solve_step stB).2 = .ok false ∧
    (solve_step stB).1.current_pos = some (1, 1) := by
  refine ⟨rfl, ?_, ?_, ?_⟩
  · decide
  · decide
  · decide

/-- C8 amended: the solver constructor accepts every strategy string without
failing, and for any strategy other than `"A*"` each `find_move` call silently
does nothing (returns the state unchanged) — the failure happens neither at
construction time nor at step time. -/
theorem find_move_noop_on_unknown_strategy (m : Maze) (sv : String) (row col : Int)
    (h : sv ≠ "A*") :
    (MazeSolver.init m sv).solver = sv ∧
    find_move (MazeSolver.init m sv) row col = .ok (MazeSolver.init m sv) := by
  constructor
  · rfl
  · unfold find_move
    rw [if_neg]
    exact h

/-- Witness for `find_move_noop_on_unknown_strategy` at the concrete strategy
string `"BFS"` on the ring maze. -/
theorem find_move_noop_witness :
    ("BFS" ≠ "A*") ∧
      ((MazeSolver.init m5 "BFS").solver = "BFS" ∧
        find_move (MazeSolver.init m5 "BFS") 1 1 = .ok (MazeSolver.init m5 "BFS")) :=
  ⟨by decide, find_move_noop_on_unknown_strategy m5 "BFS" 1 1 (by decide)⟩

/-! ### Claim C2: the generated open cells do not form a tree -/

/-- C2: the code does not satisfy the perfect-maze property.  Failing input:
`width = height = 6` (even, within the claimed precondition) with the shuffle
outcome that leaves every direction list in its original order.  The generated
layout has 19 open cells but 20 open-open adjacent pairs — a tree on 19 cells
would have exactly 18 — so the open cells contain a cycle.  Two slips cause
this: `_carve_passages_from` never marks the origin `(1, 1)` open (the spec
says "start at (1,1), mark open"), so a later carve re-enters it and closes a
cycle; and `generate` writes `'E'` onto `maze[height-2][width-2]`, a cell with
two even coordinates that the carver can never open, force-opening a wall. -/
theorem generated_open_cells_not_a_tree :
    openCount (MazeGenerator.generate 6 6 sigId) = 19 ∧
    openEdges (MazeGenerator.generate 6 6 sigId) = 20 ∧
    openEdges (MazeGenerator.generate 6 6 sigId) ≠
      openCount (MazeGenerator.generate 6 6 sigId) - 1 := by
  refine ⟨by decide, by decide, by decide⟩

/-! ### Claim C10: failure atomicity of `solve_step` -/

/-- C10 counterexample: a state from which `solve_step` raises
`noAvailableMove` and leaves the grid state completely unchanged, refuting
"the grid state observed by the caller after the failed step differs from the
state before it" for *every* failing state: on the 1×1 open maze, the first
failing step marks the cell visited, after which a second call raises again
while the post-state equals the pre-state exactly. -/
theorem failed_step_can_leave_state_unchanged :
    (solve_step st1).2 = .error .noAvailableMove ∧ (solve_step st1).1 = st1 := by
  constructor
  · decide
  · decide

/-! ### Claim C9: the set_start / set_end bounds asymmetry -/

/-- C9 counterexample: for the out-of-bounds coordinate `(3, 0)` on the 3×3
grid, `set_start` does **not** silently skip — the unguarded cell write
`self.maze[row][col].is_start = True` (maze.py:41) raises `IndexError`
(modelled as `none`) before the guarded recording line is reached; likewise
`set_end` at `(0, 3)`.  The silent skip only happens when the index resolves
(e.g. negative indices). -/
theorem set_start_out_of_range_raises :
    Maze.set_start mBase 3 0 = none ∧ Maze.set_end mBase 0 3 = none := by
  constructor
  · decide
  · decide

theorem set_start_eq (m : Maze) (row col : Int) :
    Maze.set_start m row col =
      (pyModify2D m.maze row col (fun c => { c with is_start := true })).map
        (fun mz => { m with
          maze := mz
          start_node :=
            if 0 ≤ row ∧ row < (m.rows : Int) ∧ 0 ≤ col ∧ col < (m.cols : Int) then
              some (row, col)
            else m.start_node }) := by
  unfold Maze.set_start
  cases pyModify2D m.maze row col (fun c => { c with is_start := true }) with
  | none => rfl
  | some mz => rfl

theorem set_end_eq (m : Maze) (row col : Int) :
    Maze.set_end m row col =
      (pyModify2D m.maze row col (fun c => { c with is_end := true })).map
        (fun mz => { m with
          maze := mz
          end_node :=
            if 0 ≤ row ∧ row < (m.rows : Int) ∧ 0 ≤ col ∧ col < (m.cols : Int) then
              some (row, col)
            else m.end_node }) := by
  unfold Maze.set_end
  cases pyModify2D m.maze row col (fun c => { c with is_end := true }) with
  | none => rfl
  | some mz => rfl

/-- C9 amended: on a well-formed grid, for every out-of-bounds coordinate the
recorded `start_node` is never updated, but the call is only *silent* when the
index resolves under Python indexing (e.g. negative coordinates), in which
case the resolved cell is still mutated; when the index does not resolve the
unguarded cell write raises `IndexError` instead.  For every in-bounds
coordinate both the cell flag and the recorded coordinate are set.  The same
holds for `set_end`. -/
theorem set_bounds_behavior (m : Maze) (row col : Int) (hwf : WFB m = true) :
    ((Maze.set_start m row col).isSome ↔
      (pyIdx m.rows row).isSome ∧ (pyIdx m.cols col).isSome) ∧
    (∀ m2, Maze.set_start m row col = some m2 →
      (¬(0 ≤ row ∧ row < (m.rows : Int) ∧ 0 ≤ col ∧ col < (m.cols : Int)) →
        m2.start_node = m.start_node) ∧
      ∀ ri ci, pyIdx m.rows row = some ri → pyIdx m.cols col = some ci →
        (nodeAt m2 ((ri : Int), (ci : Int))).is_start = true) ∧
    ((0 ≤ row ∧ row < (m.rows : Int) ∧ 0 ≤ col ∧ col < (m.cols : Int)) →
      ∃ m2, Maze.set_start m row col = some m2 ∧ m2.start_node = some (row, col) ∧
        (nodeAt m2 (row, col)).is_start = true) ∧
    ((Maze.set_end m row col).isSome ↔
      (pyIdx m.rows row).isSome ∧ (pyIdx m.cols col).isSome) ∧
    (∀ m2, Maze.set_end m row col = some m2 →
      (¬(0 ≤ row ∧ row < (m.rows : Int) ∧ 0 ≤ col ∧ col < (m.cols : Int)) →
        m2.end_node = m.end_node) ∧
      ∀ ri ci, pyIdx m.rows row = some ri → pyIdx m.cols col = some ci →
        (nodeAt m2 ((ri : Int), (ci : Int))).is_end = true) ∧
    ((0 ≤ row ∧ row < (m.rows : Int) ∧ 0 ≤ col ∧ col < (m.cols : Int)) →
      ∃ m2, Maze.set_end m row col = some m2 ∧ m2.end_node = some (row, col) ∧
        (nodeAt m2 (row, col)).is_end = true) := by
  refine ⟨?_, ?_, ?_, ?_, ?_, ?_⟩
  · rw [set_start_eq]
    cases h : pyModify2D m.maze row col (fun c => { c with is_start := true }) with
    | none =>
      have := pyModify2D_isSome hwf row col (fun c => { c with is_start := true })
      rw [h] at this
      constructor
      · intro hh
        simp at hh
      · intro ⟨h1, h2⟩
        rw [h1, h2] at this
        simp at this
    | some mz =>
      have := pyModify2D_isSome hwf row col (fun c => { c with is_start := true })
      rw [h] at this
      simp only [Option.isSome_some, Option.map_some] at this ⊢
      constructor
      · intro _
        constructor
        · cases hh : pyIdx m.rows row with
          | none => rw [hh] at this; simp at this
          | some ri => rfl
        · cases hh : pyIdx m.cols col with
          | none => rw [hh] at this; simp at this
          | some ci => rfl
      · intro _
        rfl
  · intro m2 hm2
    rw [set_start_eq] at hm2
    cases h : pyModify2D m.maze row col (fun c => { c with is_start := true }) with
    | none => rw [h] at hm2; cases hm2
    | some mz =>
      rw [h] at hm2
      simp only [Option.map_some', Option.some.injEq] at hm2
      constructor
      · intro hout
        rw [← hm2]
        show (if 0 ≤ row ∧ row < (m.rows : Int) ∧ 0 ≤ col ∧ col < (m.cols : Int) then
          some (row, col) else m.start_node) = m.start_node
        rw [if_neg hout]
      · intro ri ci hri hci
        obtain ⟨g2, hg2, hmut, -, -, -⟩ := pyModify2D_resolved hwf hri hci
          (fun c => { c with is_start := true })
        have hgz : mz = g2 := by
          rw [hg2] at h
          exact (Option.some_inj.mp h).symm
        rw [← hm2]
        show (gridNode mz ((ri : Int), (ci : Int))).is_start = true
        rw [hgz, hmut]
  · intro hin
    have hin' : inBB m (row, col) = true := by
      unfold inBB
      simp only [Bool.and_eq_true, decide_eq_true_eq]
      exact ⟨⟨⟨hin.1, hin.2.1⟩, hin.2.2.1⟩, hin.2.2.2⟩
    obtain ⟨hri, hci, hcast⟩ := inBB_pyIdx hin'
    obtain ⟨g2, hg2, hmut, -, -, -⟩ := pyModify2D_resolved hwf hri hci
      (fun c => { c with is_start := true })
    refine ⟨_, by rw [set_start_eq, hg2]; rfl, by simp only [if_pos hin], ?_⟩
    show (gridNode g2 (row, col)).is_start = true
    rw [← hcast, hmut]
  · rw [set_end_eq]
    cases h : pyModify2D m.maze row col (fun c => { c with is_end := true }) with
    | none =>
      have := pyModify2D_isSome hwf row col (fun c => { c with is_end := true })
      rw [h] at this
      constructor
      · intro hh
        simp at hh
      · intro ⟨h1, h2⟩
        rw [h1, h2] at this
        simp at this
    | some mz =>
      have := pyModify2D_isSome hwf row col (fun c => { c with is_end := true })
      rw [h] at this
      simp only [Option.isSome_some, Option.map_some] at this ⊢
      constructor
      · intro _
        constructor
        · cases hh : pyIdx m.rows row with
          | none => rw [hh] at this; simp at this
          | some ri => rfl
        · cases hh : pyIdx m.cols col with
          | none => rw [hh] at this; simp at this
          | some ci => rfl
      · intro _
        rfl
  · intro m2 hm2
    rw [set_end_eq] at hm2
    cases h : pyModify2D m.maze row col (fun c => { c with is_end := true }) with
    | none => rw [h] at hm2; cases hm2
    | some mz =>
      rw [h] at hm2
      simp only [Option.map_some', Option.some.injEq] at hm2
      constructor
      · intro hout
        rw [← hm2]
        show (if 0 ≤ row ∧ row < (m.rows : Int) ∧ 0 ≤ col ∧ col < (m.cols : Int) then
          some (row, col) else m.end_node) = m.end_node
        rw [if_neg hout]
      · intro ri ci hri hci
        obtain ⟨g2, hg2, hmut, -, -, -⟩ := pyModify2D_resolved hwf hri hci
          (fun c => { c with is_end := true })
        have hgz : mz = g2 := by
          rw [hg2] at h
          exact (Option.some_inj.mp h).symm
        rw [← hm2]
        show (gridNode mz ((ri : Int), (ci : Int))).is_end = true
        rw [hgz, hmut]
  · intro hin
    have hin' : inBB m (row, col) = true := by
      unfold inBB
      simp only [Bool.and_eq_true, decide_eq_true_eq]
      exact ⟨⟨⟨hin.1, hin.2.1⟩, hin.2.2.1⟩, hin.2.2.2⟩
    obtain ⟨hri, hci, hcast⟩ := inBB_pyIdx hin'
    obtain ⟨g2, hg2, hmut, -, -, -⟩ := pyModify2D_resolved hwf hri hci
      (fun c => { c with is_end := true })
    refine ⟨_, by rw [set_end_eq, hg2]; rfl, by simp only [if_pos hin], ?_⟩
    show (gridNode g2 (row, col)).is_end = true
    rw [← hcast, hmut]

/-- Witness for `set_bounds_behavior` on the concrete 3×3 grid. -/
theorem set_bounds_behavior_witness :
    WFB mBase = true ∧
      (((Maze.set_start mBase (-1) 0).isSome ↔
        (pyIdx mBase.rows (-1)).isSome ∧ (pyIdx mBase.cols 0).isSome) ∧ True) := by
  refine ⟨by decide, ?_, trivial⟩
  exact (set_bounds_behavior mBase (-1) 0 (by decide)).1

theorem solve_step_not_end_unfold {s : SState} {p : Pos} (hc : s.current_pos = some p)
    (hne : s.current_pos ≠ s.maze.end_node) :
    solve_step s =
      match pyModify2D s.maze.maze p.1 p.2 (fun c => { c with visited := true }) with
      | none => (s, .error .indexError)
      | some mz =>
        match find_move { s with maze := { s.maze with maze := mz } } p.1 p.2 with
        | .ok s2 => (s2, .ok false)
        | .error e => ({ s with maze := { s.maze with maze := mz } }, .error e) := by
  unfold solve_step
  rw [if_neg hne, hc]

theorem solve_step_not_end_some {s : SState} {p : Pos} {mz : List (List MazeNode)}
    (hc : s.current_pos = some p) (hne : s.current_pos ≠ s.maze.end_node)
    (hmod : pyModify2D s.maze.maze p.1 p.2 (fun c => { c with visited := true }) = some mz) :
    solve_step s =
      match find_move { s with maze := { s.maze with maze := mz } } p.1 p.2 with
      | .ok s2 => (s2, .ok false)
      | .error e => ({ s with maze := { s.maze with maze := mz } }, .error e) := by
  rw [solve_step_not_end_unfold hc hne, hmod]

/-- C10 amended: whenever `solve_step` raises `noAvailableMove` from a state
whose current position is in bounds, the current cell's `visited` flag has
been set to `true` before the error is raised; consequently the grid state
after the failed step differs from the state before it exactly when the
current cell had not already been visited (as on the first failing step of a
solve) — when it was already visited, the failing step changes nothing. -/
theorem visited_marked_before_no_move_error (s s2 : SState) (p : Pos)
    (hwf : WFB s.maze = true) (hc : s.current_pos = some p) (hin : inBB s.maze p = true)
    (hstep : solve_step s = (s2, .error .noAvailableMove)) :
    (nodeAt s2.maze p).visited = true ∧
    ((nodeAt s.maze p).visited = false → s2 ≠ s) ∧
    ((nodeAt s.maze p).visited = true → s2 = s) := by
  have hne : s.current_pos ≠ s.maze.end_node := by
    intro hh
    rw [solve_step_end_eq s hh] at hstep
    exact Except.noConfusion (congrArg Prod.snd hstep)
  obtain ⟨hri, hci, hcast⟩ := inBB_pyIdx hin
  obtain ⟨g2, hg2, hmut, -, -, hfix⟩ := pyModify2D_resolved hwf hri hci
    (fun c => { c with visited := true })
  rw [hcast] at hmut hfix
  rw [solve_step_not_end_some hc hne hg2] at hstep
  set s1 : SState := { s with maze := { s.maze with maze := g2 } } with hs1
  cases hfm : find_move s1 p.1 p.2 with
  | ok s3 =>
    rw [hfm] at hstep
    exact Except.noConfusion (congrArg Prod.snd hstep)
  | error e =>
    rw [hfm] at hstep
    have hs2 : s2 = s1 := (congrArg Prod.fst hstep).symm
    have hvis : (nodeAt s2.maze p).visited = true := by
      rw [hs2]
      show (gridNode g2 p).visited = true
      rw [hmut]
    refine ⟨hvis, ?_, ?_⟩
    · intro hfalse heq
      rw [heq] at hvis
      rw [hvis] at hfalse
      cases hfalse
    · intro htrue
      have : ({ nodeAt s.maze p with visited := true } : MazeNode) = nodeAt s.maze p := by
        have hn : nodeAt s.maze p = ⟨(nodeAt s.maze p).traversable, (nodeAt s.maze p).is_start,
            (nodeAt s.maze p).is_end, (nodeAt s.maze p).visited⟩ := rfl
        rw [hn, htrue]
      have hg2eq : g2 = s.maze.maze := hfix this
      rw [hs2, hs1, hg2eq]

/-- Witness for `visited_marked_before_no_move_error`: the fresh solver on the
1×1 open maze; its first step raises and marks the cell visited, changing the
state. -/
theorem visited_marked_witness :
    WFB st0.maze = true ∧ solve_step st0 = (st1, .error .noAvailableMove) ∧
      ((nodeAt st1.maze (0, 0)).visited = true ∧
        ((nodeAt st0.maze (0, 0)).visited = false → st1 ≠ st0) ∧
        ((nodeAt st0.maze (0, 0)).visited = true → st1 = st0)) :=
  ⟨by decide, by decide,
    visited_marked_before_no_move_error st0 st1 (0, 0) (by decide) (by decide) (by decide)
      (by decide)⟩

/-! ### Order facts for `inf`-valued distances and the minimum of a list -/

theorem optLt_trans {a b c : Option Nat} (h1 : optLt a b = true) (h2 : optLt b c = true) :
    optLt a c = true := by
  cases a <;> cases b <;> cases c <;> simp [optLt] at * <;> omega

theorem optLt_of_lt_of_nlt {a b c : Option Nat} (h1 : optLt a b = true)
    (h2 : optLt c b = false) : optLt a c = true := by
  cases a <;> cases b <;> cases c <;> simp [optLt] at * <;> omega

theorem optLt_irrefl (a : Option Nat) : optLt a a = false := by
  cases a <;> simp [optLt]

theorem beq_false_of_optLt {a b : Option Nat} (h : optLt a b = true) : (b == a) = false := by
  cases a <;> cases b <;> simp [optLt] at * <;> omega

theorem optLe_of_not_optLt {a b : Option Nat} (h : optLt a b = false) : optLe b a = true := by
  cases a <;> cases b <;> simp [optLt, optLe] at * <;> omega

theorem optLt_of_optLe_ne {a b : Option Nat} (h1 : optLe a b = true) (h2 : (b == a) = false) :
    optLt a b = true := by
  cases a <;> cases b <;> simp [optLt, optLe] at * <;> omega

theorem optLt_none_isSome (a : Option Nat) : optLt a none = a.isSome := by
  cases a <;> rfl

theorem optMin_cases (a b : Option Nat) : optMin a b = a ∨ optMin a b = b := by
  unfold optMin
  by_cases h : optLt b a = true
  · rw [if_pos h]; exact Or.inr rfl
  · rw [if_neg h]; exact Or.inl rfl

theorem optLe_trans {a b c : Option Nat} (h1 : optLe a b = true) (h2 : optLe b c = true) :
    optLe a c = true := by
  cases a <;> cases b <;> cases c <;> simp [optLe] at * <;> omega

theorem optLe_refl (a : Option Nat) : optLe a a = true := by
  cases a <;> simp [optLe]

theorem optLe_of_optLt {a b : Option Nat} (h : optLt a b = true) : optLe a b = true := by
  cases a <;> cases b <;> simp [optLt, optLe] at * <;> omega

theorem optMin_le_left (a b : Option Nat) : optLe (optMin a b) a = true := by
  unfold optMin
  by_cases h : optLt b a = true
  · rw [if_pos h]
    exact optLe_of_optLt h
  · rw [if_neg h]
    exact optLe_refl a

theorem optMin_le_right (a b : Option Nat) : optLe (optMin a b) b = true := by
  unfold optMin
  by_cases h : optLt b a = true
  · rw [if_pos h]
    exact optLe_refl b
  · rw [if_neg h]
    exact optLe_of_not_optLt ((Bool.not_eq_true (optLt b a)).mp h)

theorem optMin_eq_none {a b : Option Nat} : optMin a b = none ↔ a = none ∧ b = none := by
  unfold optMin
  by_cases h : optLt b a = true
  · rw [if_pos h]
    constructor
    · intro hb
      subst hb
      cases a <;> simp [optLt] at h
    · intro ⟨_, h2⟩
      exact h2
  · rw [if_neg h]
    constructor
    · intro ha
      subst ha
      refine ⟨rfl, ?_⟩
      cases b with
      | none => rfl
      | some v => exact absurd rfl h
    · intro ⟨h1, _⟩
      exact h1

theorem listMin_le (δ : Pos → Option Nat) (l : List Pos) :
    ∀ x ∈ l, optLe (listMin δ l) (δ x) = true := by
  induction l with
  | nil => intro x hx; cases hx
  | cons d rest ih =>
    intro x hx
    show optLe (optMin (δ d) (listMin δ rest)) (δ x) = true
    rcases List.mem_cons.mp hx with h | h
    · subst h
      exact optMin_le_left _ _
    · exact optLe_trans (optMin_le_right _ _) (ih x h)

theorem listMin_eq_none_iff (δ : Pos → Option Nat) (l : List Pos) :
    listMin δ l = none ↔ ∀ x ∈ l, δ x = none := by
  induction l with
  | nil => simp [listMin]
  | cons d rest ih =>
    show optMin (δ d) (listMin δ rest) = none ↔ _
    rw [optMin_eq_none, ih]
    constructor
    · intro ⟨h1, h2⟩ x hx
      rcases List.mem_cons.mp hx with h | h
      · rw [h]; exact h1
      · exact h2 x h
    · intro h
      exact ⟨h d (List.mem_cons_self d rest),
        fun x hx => h x (List.mem_cons_of_mem d hx)⟩

theorem listMin_mem (δ : Pos → Option Nat) (l : List Pos) {v : Nat}
    (h : listMin δ l = some v) : ∃ x ∈ l, δ x = some v := by
  induction l with
  | nil => cases h
  | cons d rest ih =>
    have hshow : optMin (δ d) (listMin δ rest) = some v := h
    rcases optMin_cases (δ d) (listMin δ rest) with hm | hm
    · rw [hm] at hshow
      exact ⟨d, List.mem_cons_self d rest, hshow⟩
    · rw [hm] at hshow
      obtain ⟨x, hx, hdx⟩ := ih hshow
      exact ⟨x, List.mem_cons_of_mem d hx, hdx⟩

theorem find?_first {α : Type} (p : α → Bool) (l : List α) (a : α) (h : l.find? p = some a) :
    ∃ i : Fin l.length, l.get i = a ∧ p a = true ∧
      ∀ j : Fin l.length, (j : Nat) < (i : Nat) → p (l.get j) = false := by
  induction l with
  | nil => cases h
  | cons b t ih =>
    by_cases hb : p b = true
    · rw [List.find?_cons_of_pos _ hb] at h
      cases h
      refine ⟨⟨0, Nat.succ_pos _⟩, rfl, hb, ?_⟩
      intro j hj
      exact (Nat.not_lt_zero _ hj).elim
    · have hb' : p b = false := (Bool.not_eq_true _).mp hb
      rw [List.find?_cons_of_neg _ hb] at h
      obtain ⟨i, hi1, hi2, hi3⟩ := ih h
      refine ⟨⟨(i : Nat) + 1, Nat.succ_lt_succ i.isLt⟩, hi1, hi2, ?_⟩
      intro j hj
      cases j with
      | mk jv hjv =>
        cases jv with
        | zero => exact hb'
        | succ jv2 =>
          have hlt : jv2 < (i : Nat) := by
            simp only [Fin.val_mk] at hj
            omega
          exact hi3 ⟨jv2, Nat.lt_of_succ_lt_succ hjv⟩ hlt

/-! ### Congruence: distance computation only reads dimensions, end position
and traversability -/

theorem inBB_congr {m m2 : Maze} (hr : m.rows = m2.rows) (hc : m.cols = m2.cols) (q : Pos) :
    inBB m q = inBB m2 q := by
  unfold inBB
  rw [hr, hc]

theorem bfsNext_congr {m m2 : Maze} (h : EqTrav m m2) (r c : Int) (dist : Nat)
    (vis : List Pos) : bfsNext m r c dist vis = bfsNext m2 r c dist vis := by
  unfold bfsNext
  apply congrArg (fun f => List.filterMap f dirList)
  funext d
  rw [inBB_congr h.1 h.2.1, h.2.2.2 (r + d.1, c + d.2)]

theorem bfsLoop_congr {m m2 : Maze} (h : EqTrav m m2) :
    ∀ f Q vis, bfsLoop m f Q vis = bfsLoop m2 f Q vis := by
  intro f
  induction f with
  | zero =>
    intro Q vis
    cases Q <;> rfl
  | succ f ih =>
    intro Q vis
    cases Q with
    | nil => rfl
    | cons e rest =>
      obtain ⟨p, dist⟩ := e
      simp only [bfsLoop]
      rw [h.2.2.1, bfsNext_congr h, ih, ih]

theorem calc_congr {m m2 : Maze} (h : EqTrav m m2) (sr sc : Int) :
    calculate_distance_to_end m sr sc = calculate_distance_to_end m2 sr sc := by
  unfold calculate_distance_to_end
  rw [h.1, h.2.1, bfsLoop_congr h]

theorem avail_congr {m m2 : Maze} (h : EqTrav m m2) (row col : Int) :
    m.get_available_directions row col = m2.get_available_directions row col := by
  unfold Maze.get_available_directions
  apply List.filter_congr
  intro d _
  rw [inBB_congr h.1 h.2.1, h.2.2.2 (row + d.1, col + d.2)]

/-- Marking a cell visited (or setting any per-cell flag) leaves the
traversability view unchanged. -/
theorem eqTrav_of_mark {m : Maze} (hwf : WFB m = true) {p : Pos} (hin : inBB m p = true)
    {g2 : List (List MazeNode)}
    (hg2 : pyModify2D m.maze p.1 p.2 (fun c => { c with visited := true }) = some g2) :
    EqTrav m { m with maze := g2 } := by
  obtain ⟨hri, hci, hcast⟩ := inBB_pyIdx hin
  obtain ⟨g3, hg3, hmut, hother, -, -⟩ := pyModify2D_resolved hwf hri hci
    (fun c => { c with visited := true })
  have hg : g3 = g2 := by
    rw [hg3] at hg2
    exact Option.some_inj.mp hg2
  subst hg
  refine ⟨rfl, rfl, rfl, ?_⟩
  intro q
  show (gridNode m.maze q).traversable = (gridNode g3 q).traversable
  by_cases hq : q.1.toNat = p.1.toNat ∧ q.2.toNat = p.2.toNat
  · have hnode : gridNode g3 q = gridNode g3 ((p.1.toNat : Int), (p.2.toNat : Int)) := by
      unfold gridNode
      rw [hq.1, hq.2]
      simp only [Int.toNat_ofNat]
    have hnode2 : gridNode m.maze q = gridNode m.maze ((p.1.toNat : Int), (p.2.toNat : Int)) := by
      unfold gridNode
      rw [hq.1, hq.2]
      simp only [Int.toNat_ofNat]
    rw [hnode, hnode2, hmut]
  · rw [hother q hq]

/-! ### Reads performed by the `A_star` loop -/

theorem pyGet2D_inb {m : Maze} (hwf : WFB m = true) {q : Pos} (hin : inBB m q = true) :
    pyGet2D m.maze q.1 q.2 = some (nodeAt m q) := by
  unfold WFB at hwf
  rw [Bool.and_eq_true, beq_iff_eq, List.all_eq_true] at hwf
  obtain ⟨hlen, hall⟩ := hwf
  obtain ⟨hri, hci, hcast⟩ := inBB_pyIdx hin
  have hri' : q.1.toNat < m.maze.length := by rw [hlen]; exact pyIdx_some_lt hri
  obtain ⟨row, hrow⟩ : ∃ row, m.maze.get? q.1.toNat = some row := by
    rw [List.get?_eq_get hri']
    exact ⟨_, rfl⟩
  have hrowlen : row.length = m.cols := by
    have := hall row (List.get?_mem hrow)
    rwa [beq_iff_eq] at this
  have hci' : q.2.toNat < row.length := by rw [hrowlen]; exact pyIdx_some_lt hci
  obtain ⟨cell, hcell⟩ : ∃ cell, row.get? q.2.toNat = some cell := by
    rw [List.get?_eq_get hci']
    exact ⟨_, rfl⟩
  have hnode : nodeAt m q = cell := by
    show gridNode m.maze q = cell
    unfold gridNode
    rw [hrow, Option.getD_some, hcell, Option.getD_some]
  unfold pyGet2D
  have hlen2 : m.maze.length = m.rows := hlen
  rw [hlen2, hri]
  simp only [Option.bind_eq_bind, Option.some_bind]
  rw [hrow]
  simp only [Option.some_bind]
  rw [hrowlen, hci]
  simp only [Option.some_bind]
  rw [hcell, hnode]

theorem mem_avail {m : Maze} {row col : Int} {d : Pos}
    (h : d ∈ m.get_available_directions row col) :
    d ∈ dirList ∧ inBB m (row + d.1, col + d.2) = true ∧
      (nodeAt m (row + d.1, col + d.2)).traversable = true := by
  unfold Maze.get_available_directions at h
  have h2 := List.mem_filter.mp h
  refine ⟨h2.1, ?_, ?_⟩
  · have := h2.2
    rw [Bool.and_eq_true] at this
    exact this.1
  · have := h2.2
    rw [Bool.and_eq_true] at this
    exact this.2

theorem avail_mem {m : Maze} {row col : Int} {d : Pos} (hd : d ∈ dirList)
    (hin : inBB m (row + d.1, col + d.2) = true)
    (htrav : (nodeAt m (row + d.1, col + d.2)).traversable = true) :
    d ∈ m.get_available_directions row col := by
  unfold Maze.get_available_directions
  apply List.mem_filter.mpr
  exact ⟨hd, by rw [hin, htrav]; rfl⟩

theorem stepDist_def (m : Maze) (cp d : Pos) :
    stepDist m cp d = calculate_distance_to_end m (add_tuples cp d).1 (add_tuples cp d).2 := rfl

/-- Characterization of the `A_star` accumulator loop: when every candidate
resolves to a traversable cell, the loop returns the minimum distance found and
the *first* direction attaining it (the accumulator only updates on a strict
improvement), against any initial accumulator. -/
theorem astarLoop_eq (m : Maze) (cp : Pos) (l : List Pos)
    (hres : ∀ d ∈ l, ∃ cell,
      pyGet2D m.maze (add_tuples cp d).1 (add_tuples cp d).2 = some cell ∧
        cell.traversable = true) :
    ∀ least best, astarLoop m cp l least best = .ok
      (if optLt (listMin (stepDist m cp) l) least = true then
        (listMin (stepDist m cp) l,
          l.find? (fun d => stepDist m cp d == listMin (stepDist m cp) l))
      else (least, best)) := by
  induction l with
  | nil =>
    intro least best
    show Except.ok (least, best) = _
    rw [if_neg]
    rw [show listMin (stepDist m cp) [] = none from rfl]
    simp [optLt]
  | cons d rest ih =>
    intro least best
    obtain ⟨cell, hcell, htrav⟩ := hres d (List.mem_cons_self d rest)
    have hres2 : ∀ x ∈ rest, ∃ cell,
        pyGet2D m.maze (add_tuples cp x).1 (add_tuples cp x).2 = some cell ∧
          cell.traversable = true :=
      fun x hx => hres x (List.mem_cons_of_mem d hx)
    have hlm : listMin (stepDist m cp) (d :: rest) =
        optMin (stepDist m cp d) (listMin (stepDist m cp) rest) := rfl
    have hunfold : astarLoop m cp (d :: rest) least best =
        if optLt (calculate_distance_to_end m (add_tuples cp d).1 (add_tuples cp d).2)
            least = true then
          astarLoop m cp rest
            (calculate_distance_to_end m (add_tuples cp d).1 (add_tuples cp d).2) (some d)
        else astarLoop m cp rest least best := by
      show (match pyGet2D m.maze (add_tuples cp d).1 (add_tuples cp d).2 with
        | none => Except.error PyErr.indexError
        | some cell =>
          if cell.traversable then
            if optLt (calculate_distance_to_end m (add_tuples cp d).1 (add_tuples cp d).2)
                least then
              astarLoop m cp rest
                (calculate_distance_to_end m (add_tuples cp d).1 (add_tuples cp d).2) (some d)
            else astarLoop m cp rest least best
          else astarLoop m cp rest least best) = _
      rw [hcell]
      show (if cell.traversable then _ else _) = _
      rw [if_pos htrav]
    rw [hunfold, ← stepDist_def, hlm]
    by_cases hA : optLt (stepDist m cp d) least = true
    · rw [if_pos hA, ih hres2]
      by_cases hA1 : optLt (listMin (stepDist m cp) rest) (stepDist m cp d) = true
      · have hmin : optMin (stepDist m cp d) (listMin (stepDist m cp) rest) =
            listMin (stepDist m cp) rest := by
          unfold optMin
          rw [if_pos hA1]
        rw [if_pos hA1, hmin, if_pos (optLt_trans hA1 hA),
          List.find?_cons_of_neg _ (by rw [beq_false_of_optLt hA1]; exact Bool.false_ne_true)]
      · have hA1' : optLt (listMin (stepDist m cp) rest) (stepDist m cp d) = false :=
          (Bool.not_eq_true _).mp hA1
        have hmin : optMin (stepDist m cp d) (listMin (stepDist m cp) rest) =
            stepDist m cp d := by
          unfold optMin
          rw [hA1']
          rfl
        rw [if_neg hA1, hmin, if_pos hA,
          List.find?_cons_of_pos _ (by rw [beq_self_eq_true])]
    · have hA' : optLt (stepDist m cp d) least = false := (Bool.not_eq_true _).mp hA
      rw [if_neg hA, ih hres2]
      by_cases hB1 : optLt (listMin (stepDist m cp) rest) least = true
      · have hlt : optLt (listMin (stepDist m cp) rest) (stepDist m cp d) = true :=
          optLt_of_lt_of_nlt hB1 hA'
        have hmin : optMin (stepDist m cp d) (listMin (stepDist m cp) rest) =
            listMin (stepDist m cp) rest := by
          unfold optMin
          rw [if_pos hlt]
        rw [if_pos hB1, hmin, if_pos hB1,
          List.find?_cons_of_neg _ (by rw [beq_false_of_optLt hlt]; exact Bool.false_ne_true)]
      · have hB1' : optLt (listMin (stepDist m cp) rest) least = false :=
          (Bool.not_eq_true _).mp hB1
        have hcond : optLt (optMin (stepDist m cp d) (listMin (stepDist m cp) rest))
            least = false := by
          rcases optMin_cases (stepDist m cp d) (listMin (stepDist m cp) rest) with hm | hm
          · rw [hm]
            exact hA'
          · rw [hm]
            exact hB1'
        rw [if_neg hB1, hcond]
        rfl

theorem avail_resolves {m : Maze} (hwf : WFB m = true) (p : Pos) :
    ∀ d ∈ m.get_available_directions p.1 p.2, ∃ cell,
      pyGet2D m.maze (add_tuples p d).1 (add_tuples p d).2 = some cell ∧
        cell.traversable = true := by
  intro d hd
  obtain ⟨-, hin, htrav⟩ := mem_avail hd
  exact ⟨nodeAt m (add_tuples p d), pyGet2D_inb hwf hin, htrav⟩

theorem A_star_unfold {s : SState} {p : Pos} (hc : s.current_pos = some p) (row col : Int) :
    A_star s row col =
      match astarLoop s.maze p (s.maze.get_available_directions row col) none none with
      | .error e => .error e
      | .ok (_, some mv) => .ok { s with current_pos := some (add_tuples p mv) }
      | .ok (_, none) => .error .noAvailableMove := by
  unfold A_star
  rw [hc]

/-- When every available direction has infinite BFS distance (including the
vacuous case of no available direction at all), `A_star` raises
`noAvailableMove`: `best_move` is never assigned because `inf < inf` is false. -/
theorem A_star_none {s : SState} {p : Pos} (hwf : WFB s.maze = true)
    (hc : s.current_pos = some p)
    (hall : ∀ d ∈ s.maze.get_available_directions p.1 p.2, stepDist s.maze p d = none) :
    A_star s p.1 p.2 = .error .noAvailableMove := by
  rw [A_star_unfold hc, astarLoop_eq s.maze p _ (avail_resolves hwf p)]
  rw [(listMin_eq_none_iff (stepDist s.maze p) _).mpr hall]
  rfl

/-- When some available direction has finite BFS distance, `A_star` moves the
current position by the first direction attaining the minimum distance. -/
theorem A_star_moves {s : SState} {p : Pos} (hwf : WFB s.maze = true)
    (hc : s.current_pos = some p) {v : Nat}
    (hmin : listMin (stepDist s.maze p) (s.maze.get_available_directions p.1 p.2) = some v) :
    ∃ mv, (s.maze.get_available_directions p.1 p.2).find?
        (fun d => stepDist s.maze p d == some v) = some mv ∧
      A_star s p.1 p.2 = .ok { s with current_pos := some (add_tuples p mv) } := by
  rw [A_star_unfold hc, astarLoop_eq s.maze p _ (avail_resolves hwf p), hmin]
  obtain ⟨x, hx, hdx⟩ := listMin_mem _ _ hmin
  have hfind : ((s.maze.get_available_directions p.1 p.2).find?
      (fun d => stepDist s.maze p d == some v)).isSome = true := by
    rw [List.find?_isSome]
    exact ⟨x, hx, by rw [hdx]; exact beq_self_eq_true _⟩
  obtain ⟨mv, hmv⟩ := Option.isSome_iff_exists.mp hfind
  refine ⟨mv, hmv, ?_⟩
  rw [hmv]
  rfl

/-- One non-terminal `solve_step` is: mark the current cell visited, then run
`A_star` on the marked state (the strategy being `"A*"`); the marked state
differs from the original only in per-cell flags. -/
theorem solve_step_astar {s : SState} {p : Pos} (hwf : WFB s.maze = true)
    (hc : s.current_pos = some p) (hin : inBB s.maze p = true) (hsol : s.solver = "A*")
    (hne : s.current_pos ≠ s.maze.end_node) :
    ∃ s1 : SState, WFB s1.maze = true ∧ s1.current_pos = some p ∧
      EqTrav s.maze s1.maze ∧ s1.solver = s.solver ∧ s1.facing = s.facing ∧
      solve_step s = (match A_star s1 p.1 p.2 with
        | .ok s2 => (s2, .ok false)
        | .error e => (s1, .error e)) := by
  obtain ⟨hri, hci, hcast⟩ := inBB_pyIdx hin
  obtain ⟨g2, hg2, -, -, hwf2, -⟩ := pyModify2D_resolved hwf hri hci
    (fun c => { c with visited := true })
  refine ⟨{ s with maze := { s.maze with maze := g2 } }, hwf2, hc,
    eqTrav_of_mark hwf hin hg2, rfl, rfl, ?_⟩
  rw [solve_step_not_end_some hc hne hg2]
  have hfm : find_move { s with maze := { s.maze with maze := g2 } } p.1 p.2 =
      A_star { s with maze := { s.maze with maze := g2 } } p.1 p.2 := by
    unfold find_move
    rw [if_pos]
    exact hsol
  rw [hfm]

/-- C5: whenever a solver step is taken (with the `"A*"` strategy) from an
in-bounds position that is not the end position and every available direction
has infinite distance-to-end — in particular at a cell with zero traversable
neighbors, where the condition holds vacuously — the step fails with the
`noAvailableMove` error rather than returning; the error is the step's final
result and nothing inside the solver retries it. -/
theorem step_raises_when_no_finite_candidate (s : SState) (p : Pos)
    (hwf : WFB s.maze = true) (hc : s.current_pos = some p) (hin : inBB s.maze p = true)
    (hsol : s.solver = "A*") (hne : s.current_pos ≠ s.maze.end_node)
    (hall : ∀ d ∈ s.maze.get_available_directions p.1 p.2, stepDist s.maze p d = none) :
    (solve_step s).2 = .error .noAvailableMove := by
  obtain ⟨s1, hwf1, hc1, htrav, hsol1, -, hstep⟩ := solve_step_astar hwf hc hin hsol hne
  have hall1 : ∀ d ∈ s1.maze.get_available_directions p.1 p.2, stepDist s1.maze p d = none := by
    intro d hd
    rw [← avail_congr htrav] at hd
    rw [stepDist_def, ← calc_congr htrav]
    exact hall d hd
  rw [hstep, A_star_none hwf1 hc1 hall1]

/-- Witness for `step_raises_when_no_finite_candidate`: the fresh solver on
the 1×1 open maze — no neighbor is available, so the first step raises. -/
theorem step_raises_witness :
    (WFB st0.maze = true ∧ st0.current_pos = some (0, 0) ∧ inBB st0.maze (0, 0) = true ∧
      st0.solver = "A*" ∧ st0.current_pos ≠ st0.maze.end_node ∧
      ∀ d ∈ st0.maze.get_available_directions 0 0, stepDist st0.maze (0, 0) d = none) ∧
    (solve_step st0).2 = .error .noAvailableMove :=
  ⟨⟨by decide, by decide, by decide, by decide, by decide, by decide⟩,
    step_raises_when_no_finite_candidate st0 (0, 0) (by decide) (by decide) (by decide)
      (by decide) (by decide) (by decide)⟩

/-- C4: whenever a solver step is taken (with the `"A*"` strategy) from an
in-bounds, non-end position and at least one available direction has finite
distance-to-end, the step returns `false` and moves the current position by
exactly the first direction — in the fixed enumeration order right `(0,1)`,
down `(1,0)`, left `(0,-1)`, up `(-1,0)` (the order of
`get_available_directions`) — whose target attains the strictly smallest
distance-to-end among all available neighbors; ties are won by the first such
direction encountered. -/
theorem step_moves_to_first_min (s : SState) (p : Pos)
    (hwf : WFB s.maze = true) (hc : s.current_pos = some p) (hin : inBB s.maze p = true)
    (hsol : s.solver = "A*") (hne : s.current_pos ≠ s.maze.end_node)
    (hfin : ∃ d ∈ s.maze.get_available_directions p.1 p.2,
      (stepDist s.maze p d).isSome = true) :
    ∃ mv, FirstStrictMin (s.maze.get_available_directions p.1 p.2) (stepDist s.maze p) mv ∧
      (solve_step s).1.current_pos = some (add_tuples p mv) ∧
      (solve_step s).2 = .ok false := by
  obtain ⟨s1, hwf1, hc1, htrav, hsol1, -, hstep⟩ := solve_step_astar hwf hc hin hsol hne
  have hδ : stepDist s1.maze p = stepDist s.maze p := by
    funext d
    rw [stepDist_def, stepDist_def, calc_congr htrav]
  have havail : s1.maze.get_available_directions p.1 p.2 =
      s.maze.get_available_directions p.1 p.2 := (avail_congr htrav _ _).symm
  obtain ⟨d0, hd0, hd0s⟩ := hfin
  have hlm : listMin (stepDist s.maze p) (s.maze.get_available_directions p.1 p.2) ≠ none := by
    intro hnone
    rw [listMin_eq_none_iff] at hnone
    rw [hnone d0 hd0] at hd0s
    cases hd0s
  obtain ⟨v, hv⟩ := Option.ne_none_iff_exists'.mp hlm
  have hmin1 : listMin (stepDist s1.maze p) (s1.maze.get_available_directions p.1 p.2) =
      some v := by
    rw [hδ, havail]
    exact hv
  obtain ⟨mv, hfind, hAst⟩ := A_star_moves hwf1 hc1 hmin1
  rw [hδ, havail] at hfind
  obtain ⟨i, hget, hpred, hbefore⟩ := find?_first _ _ _ hfind
  have hδmv : stepDist s.maze p mv = some v := eq_of_beq hpred
  refine ⟨mv, ⟨i, hget, ?_, ?_⟩, ?_, ?_⟩
  · intro x hx
    rw [hδmv, ← hv]
    exact listMin_le _ _ x hx
  · intro j hj
    have hne2 := hbefore j hj
    rw [hδmv]
    refine optLt_of_optLe_ne ?_ hne2
    rw [← hv]
    exact listMin_le _ _ _ (List.get_mem _ _ _)
  · rw [hstep, hAst]
  · rw [hstep, hAst]

/-- Witness for `step_moves_to_first_min`: on the 5×5 ring maze from start
`(1, 1)` with end `(3, 3)`, both right and down have distance 3 — a tie — so
the solver moves right, the first direction in enumeration order. -/
theorem step_moves_witness :
    (WFB stA.maze = true ∧ stA.current_pos = some (1, 1) ∧ inBB stA.maze (1, 1) = true ∧
      stA.solver = "A*" ∧ stA.current_pos ≠ stA.maze.end_node ∧
      ∃ d ∈ stA.maze.get_available_directions 1 1, (stepDist stA.maze (1, 1) d).isSome = true) ∧
    ∃ mv, FirstStrictMin (stA.maze.get_available_directions 1 1) (stepDist stA.maze (1, 1)) mv ∧
      (solve_step stA).1.current_pos = some (add_tuples (1, 1) mv) ∧
      (solve_step stA).2 = .ok false :=
  ⟨⟨by decide, by decide, by decide, by decide, by decide, by decide⟩,
    step_moves_to_first_min stA (1, 1) (by decide) (by decide) (by decide) (by decide)
      (by decide) (by decide)⟩

/-! ### Paths: basic facts -/

theorem chainTo_snoc {m : Maze} : ∀ {n : Nat} {p q r : Pos}, chainTo m p q n →
    okStep m q r → chainTo m p r (n + 1) := by
  intro n
  induction n with
  | zero =>
    intro p q r hch hst
    have hpq : p = q := hch
    subst hpq
    exact ⟨r, hst, rfl⟩
  | succ n ih =>
    intro p q r hch hst
    obtain ⟨x, hx, hch2⟩ := hch
    exact ⟨x, hx, ih hch2 hst⟩

theorem chainTo_append {m : Maze} : ∀ {a : Nat} {b : Nat} {p q r : Pos},
    chainTo m p q a → chainTo m q r b → chainTo m p r (a + b) := by
  intro a
  induction a with
  | zero =>
    intro b p q r h1 h2
    have hpq : p = q := h1
    subst hpq
    rw [Nat.zero_add]
    exact h2
  | succ a ih =>
    intro b p q r h1 h2
    obtain ⟨x, hx, hch⟩ := h1
    have heq : a + 1 + b = (a + b) + 1 := by omega
    rw [heq]
    exact ⟨x, hx, ih hch h2⟩

theorem chainTo_ok_of_pos {m : Maze} : ∀ {n : Nat} {p q : Pos}, chainTo m p q (n + 1) →
    okCellB m q = true := by
  intro n
  induction n with
  | zero =>
    intro p q h
    obtain ⟨x, hx, hxq⟩ := h
    have : x = q := hxq
    subst this
    exact hx.2
  | succ n ih =>
    intro p q h
    obtain ⟨x, hx, hch⟩ := h
    exact ih hch

theorem chainTo_last_decomp {m : Maze} : ∀ {n : Nat} {p q : Pos}, chainTo m p q (n + 1) →
    ∃ r, chainTo m p r n ∧ okStep m r q := by
  intro n
  induction n with
  | zero =>
    intro p q h
    obtain ⟨x, hx, hxq⟩ := h
    have : x = q := hxq
    subst this
    exact ⟨p, rfl, hx⟩
  | succ n ih =>
    intro p q h
    obtain ⟨x, hx, hch⟩ := h
    obtain ⟨r, hr1, hr2⟩ := ih hch
    exact ⟨r, ⟨x, hx, hr1⟩, hr2⟩

theorem okCellB_inBB {m : Maze} {q : Pos} (h : okCellB m q = true) : inBB m q = true := by
  unfold okCellB at h
  rw [Bool.and_eq_true] at h
  exact h.1

theorem reach_succ_of_step {m : Maze} {p q : Pos} {n : Nat} (hst : okStep m p q)
    (h : reachesIn m q n) : reachesIn m p (n + 1) := by
  obtain ⟨e, he, hch⟩ := h
  exact ⟨e, he, q, hst, hch⟩

/-! ### The BFS queue invariant -/

/-- Invariant of the BFS loop state: `Q` is the pending queue, `V` the visited
set, `φ` assigns to each visited cell the distance at which it was popped.
`src` is the query cell the BFS started from. -/
structure BfsInv (m : Maze) (src : Pos) (Q : List (Pos × Nat)) (V : List Pos)
    (φ : Pos → Nat) : Prop where
  sound : ∀ e ∈ Q, chainTo m src e.1 e.2
  sorted : (Q.map Prod.snd).Sorted (· ≤ ·)
  close : ∀ e ∈ Q, ∀ e2 ∈ Q, e.2 ≤ e2.2 + 1
  nb : ∀ v ∈ V, ∀ q, okStep m v q →
    (q ∈ V ∧ φ q ≤ φ v + 1) ∨ ∃ n, (q, n) ∈ Q ∧ n ≤ φ v + 1
  visLe : ∀ v ∈ V, ∀ e ∈ Q, φ v ≤ e.2
  srcIn : (src ∈ V ∧ φ src = 0) ∨ (V = [] ∧ Q = [(src, 0)])
  endNot : ∀ v ∈ V, m.end_node ≠ some v

theorem sorted_head_le {z : Pos} {dz : Nat} {rest : List (Pos × Nat)}
    (h : (((z, dz) :: rest).map Prod.snd).Sorted (· ≤ ·)) :
    ∀ e ∈ rest, dz ≤ e.2 := by
  intro e he
  have h2 : ∀ b ∈ rest.map Prod.snd, dz ≤ b := List.rel_of_sorted_cons h
  exact h2 e.2 (List.mem_map_of_mem Prod.snd he)

/-- Every chain from the source is covered by the current BFS state: it ends
in a visited cell popped early enough, or some cell along it is in the queue
with an entry distance no larger than the chain length. -/
theorem inv_cover {m : Maze} {src : Pos} {Q : List (Pos × Nat)} {V : List Pos}
    {φ : Pos → Nat} (inv : BfsInv m src Q V φ) (hsrc : src ∈ V ∧ φ src = 0) :
    ∀ n q, chainTo m src q n → (q ∈ V ∧ φ q ≤ n) ∨ ∃ e ∈ Q, e.2 ≤ n := by
  intro n
  induction n with
  | zero =>
    intro q hch
    have : src = q := hch
    subst this
    exact Or.inl ⟨hsrc.1, by rw [hsrc.2]⟩
  | succ n ih =>
    intro q hch
    obtain ⟨r, hr, hstep⟩ := chainTo_last_decomp hch
    rcases ih r hr with ⟨hrv, hrφ⟩ | ⟨e, he, hle⟩
    · rcases inv.nb r hrv q hstep with ⟨hqv, hqφ⟩ | ⟨nq, hnq, hnqle⟩
      · exact Or.inl ⟨hqv, by omega⟩
      · exact Or.inr ⟨(q, nq), hnq, by omega⟩
    · exact Or.inr ⟨e, he, by omega⟩

theorem contains_iff_mem (l : List Pos) (p : Pos) : l.contains p = true ↔ p ∈ l := by
  simp [List.contains]

theorem mem_bfsNext {m : Maze} {z : Pos} {dist : Nat} {vis : List Pos} {e : Pos × Nat} :
    e ∈ bfsNext m z.1 z.2 dist vis ↔ okStep m z e.1 ∧ e.1 ∉ vis ∧ e.2 = dist + 1 := by
  unfold bfsNext
  rw [List.mem_filterMap]
  constructor
  · intro ⟨d, hd, heq⟩
    by_cases hcond : (inBB m (z.1 + d.1, z.2 + d.2) &&
        (nodeAt m (z.1 + d.1, z.2 + d.2)).traversable &&
        !(vis.contains (z.1 + d.1, z.2 + d.2))) = true
    · rw [if_pos hcond] at heq
      cases heq
      simp only [Bool.and_eq_true, Bool.not_eq_true'] at hcond
      refine ⟨⟨⟨d, hd, rfl⟩, ?_⟩, ?_, rfl⟩
      · unfold okCellB
        rw [hcond.1.1, hcond.1.2]
        rfl
      · intro hmem
        rw [← contains_iff_mem] at hmem
        rw [hmem] at hcond
        cases hcond.2
    · rw [if_neg hcond] at heq
      cases heq
  · intro ⟨⟨⟨d, hd, hq⟩, hok⟩, hnv, hdist⟩
    refine ⟨d, hd, ?_⟩
    have hq' : (z.1 + d.1, z.2 + d.2) = e.1 := hq.symm
    unfold okCellB at hok
    rw [Bool.and_eq_true] at hok
    have hcont : vis.contains e.1 = false := by
      by_cases hcc : vis.contains e.1 = true
      · exact absurd ((contains_iff_mem _ _).mp hcc) hnv
      · exact (Bool.not_eq_true _).mp hcc
    rw [hq', if_pos (by rw [hok.1, hok.2, hcont]; rfl), ← hdist]

theorem pairwise_le_of_all_eq {l : List Nat} {c : Nat} (h : ∀ x ∈ l, x = c) :
    l.Pairwise (· ≤ ·) := by
  induction l with
  | nil => exact List.Pairwise.nil
  | cons a t ih =>
    refine List.Pairwise.cons ?_ (ih fun x hx => h x (List.mem_cons_of_mem _ hx))
    intro b hb
    rw [h a (List.mem_cons_self _ _), h b (List.mem_cons_of_mem _ hb)]

/-- Popping an already-visited entry preserves the invariant. -/
theorem inv_skip {m : Maze} {src z : Pos} {dz : Nat} {rest : List (Pos × Nat)} {V : List Pos}
    {φ : Pos → Nat} (inv : BfsInv m src ((z, dz) :: rest) V φ) (hzv : z ∈ V) :
    BfsInv m src rest V φ := by
  have hsub : ∀ e : Pos × Nat, e ∈ rest → e ∈ (z, dz) :: rest :=
    fun e he => List.mem_cons_of_mem _ he
  refine ⟨?_, ?_, ?_, ?_, ?_, ?_, inv.endNot⟩
  · exact fun e he => inv.sound e (hsub e he)
  · exact List.Sorted.of_cons inv.sorted
  · exact fun e he e2 he2 => inv.close e (hsub e he) e2 (hsub e2 he2)
  · intro v hv q hstep
    rcases inv.nb v hv q hstep with ⟨hqv, hqφ⟩ | ⟨n, hnq, hnle⟩
    · exact Or.inl ⟨hqv, hqφ⟩
    · rcases List.mem_cons.mp hnq with hhead | htail
      · have hq : q = z ∧ n = dz := by
          have := Prod.mk.injEq q n z dz ▸ hhead
          exact ⟨congrArg Prod.fst hhead, congrArg Prod.snd hhead⟩
        refine Or.inl ⟨hq.1 ▸ hzv, ?_⟩
        have hφz : φ z ≤ dz := inv.visLe z hzv (z, dz) (List.mem_cons_self _ _)
        rw [hq.1]
        omega
      · exact Or.inr ⟨n, htail, hnle⟩
  · exact fun v hv e he => inv.visLe v hv e (hsub e he)
  · rcases inv.srcIn with h | ⟨hV, _⟩
    · exact Or.inl h
    · rw [hV] at hzv
      cases hzv

/-- Popping a fresh non-goal entry, marking it visited and pushing its
unvisited ok-neighbors preserves the invariant (with the popped distance
recorded for the newly visited cell). -/
theorem inv_enqueue {m : Maze} {src z : Pos} {dz : Nat} {rest : List (Pos × Nat)} {V : List Pos}
    {φ : Pos → Nat} (inv : BfsInv m src ((z, dz) :: rest) V φ) (hzv : z ∉ V)
    (hze : m.end_node ≠ some z) :
    BfsInv m src (rest ++ bfsNext m z.1 z.2 dz (z :: V)) (z :: V)
      (fun w => if w = z then dz else φ w) := by
  have hheadmem : (z, dz) ∈ (z, dz) :: rest := List.mem_cons_self _ _
  have hsub : ∀ e : Pos × Nat, e ∈ rest → e ∈ (z, dz) :: rest :=
    fun e he => List.mem_cons_of_mem _ he
  have hrest_ge : ∀ e ∈ rest, dz ≤ e.2 := sorted_head_le inv.sorted
  have hrest_le : ∀ e ∈ rest, e.2 ≤ dz + 1 :=
    fun e he => inv.close e (hsub e he) (z, dz) hheadmem
  have hnew : ∀ e ∈ bfsNext m z.1 z.2 dz (z :: V),
      okStep m z e.1 ∧ e.1 ∉ z :: V ∧ e.2 = dz + 1 :=
    fun e he => mem_bfsNext.mp he
  have hrange : ∀ e ∈ rest ++ bfsNext m z.1 z.2 dz (z :: V), dz ≤ e.2 ∧ e.2 ≤ dz + 1 := by
    intro e he
    rcases List.mem_append.mp he with h | h
    · exact ⟨hrest_ge e h, hrest_le e h⟩
    · rw [(hnew e h).2.2]
      omega
  have hchz : chainTo m src z dz := inv.sound (z, dz) hheadmem
  refine ⟨?_, ?_, ?_, ?_, ?_, ?_, ?_⟩
  · intro e he
    rcases List.mem_append.mp he with h | h
    · exact inv.sound e (hsub e h)
    · obtain ⟨hstep, -, hd⟩ := hnew e h
      rw [hd]
      exact chainTo_snoc hchz hstep
  · rw [List.map_append]
    refine List.pairwise_append.mpr ⟨List.Sorted.of_cons inv.sorted, ?_, ?_⟩
    · refine pairwise_le_of_all_eq (c := dz + 1) ?_
      intro x hx
      obtain ⟨e, he, hex⟩ := List.mem_map.mp hx
      rw [← hex, (hnew e he).2.2]
    · intro a ha b hb
      obtain ⟨ea, hea, hae⟩ := List.mem_map.mp ha
      obtain ⟨eb, heb, hbe⟩ := List.mem_map.mp hb
      rw [← hae, ← hbe, (hnew eb heb).2.2]
      exact hrest_le ea hea
  · intro e he e2 he2
    have h1 := hrange e he
    have h2 := hrange e2 he2
    omega
  · intro v hv q hstep
    show (q ∈ z :: V ∧ (if q = z then dz else φ q) ≤ (if v = z then dz else φ v) + 1) ∨
      ∃ n, (q, n) ∈ rest ++ bfsNext m z.1 z.2 dz (z :: V) ∧
        n ≤ (if v = z then dz else φ v) + 1
    by_cases hvz : v = z
    · rw [if_pos hvz]
      by_cases hq : q ∈ z :: V
      · refine Or.inl ⟨hq, ?_⟩
        rcases List.mem_cons.mp hq with hqz | hqV
        · rw [if_pos hqz]
          omega
        · have hqnz : q ≠ z := fun hh => hzv (hh ▸ hqV)
          rw [if_neg hqnz]
          have hle := inv.visLe q hqV (z, dz) hheadmem
          omega
      · exact Or.inr ⟨dz + 1, List.mem_append.mpr (Or.inr (mem_bfsNext.mpr
          ⟨hvz ▸ hstep, hq, rfl⟩)), by omega⟩
    · rw [if_neg hvz]
      have hvV : v ∈ V := by
        rcases List.mem_cons.mp hv with hh | hh
        · exact absurd hh hvz
        · exact hh
      rcases inv.nb v hvV q hstep with ⟨hqv, hqφ⟩ | ⟨n, hnq, hnle⟩
      · have hqnz : q ≠ z := fun hh => hzv (hh ▸ hqv)
        refine Or.inl ⟨List.mem_cons_of_mem _ hqv, ?_⟩
        rw [if_neg hqnz]
        exact hqφ
      · rcases List.mem_cons.mp hnq with hhead | htail
        · have hqz : q = z := congrArg Prod.fst hhead
          have hndz : n = dz := congrArg Prod.snd hhead
          refine Or.inl ⟨hqz ▸ List.mem_cons_self z V, ?_⟩
          rw [if_pos hqz]
          omega
        · exact Or.inr ⟨n, List.mem_append.mpr (Or.inl htail), hnle⟩
  · intro v hv e he
    show (if v = z then dz else φ v) ≤ e.2
    have hge := (hrange e he).1
    by_cases hvz : v = z
    · rw [if_pos hvz]
      exact hge
    · rw [if_neg hvz]
      have hvV : v ∈ V := by
        rcases List.mem_cons.mp hv with hh | hh
        · exact absurd hh hvz
        · exact hh
      have := inv.visLe v hvV (z, dz) hheadmem
      omega
  · rcases inv.srcIn with ⟨hsV, hsφ⟩ | ⟨hV, hQ⟩
    · have hsnz : src ≠ z := fun hh => hzv (hh ▸ hsV)
      refine Or.inl ⟨List.mem_cons_of_mem _ hsV, ?_⟩
      show (if src = z then dz else φ src) = 0
      rw [if_neg hsnz]
      exact hsφ
    · have hhd : z = src ∧ dz = 0 := by
        rw [List.cons.injEq] at hQ
        exact ⟨congrArg Prod.fst hQ.1, congrArg Prod.snd hQ.1⟩
      refine Or.inl ⟨hhd.1 ▸ List.mem_cons_self z V, ?_⟩
      show (if src = z then dz else φ src) = 0
      rw [if_pos hhd.1.symm]
      exact hhd.2
  · intro v hv
    rcases List.mem_cons.mp hv with hvz | hvV
    · rw [hvz]
      exact hze
    · exact inv.endNot v hvV

theorem inv_empty_no_reach {m : Maze} {src : Pos} {V : List Pos} {φ : Pos → Nat}
    (inv : BfsInv m src [] V φ) : ∀ n, ¬ reachesIn m src n := by
  intro n hreach
  obtain ⟨e, hend, hch⟩ := hreach
  have hsrc : src ∈ V ∧ φ src = 0 := by
    rcases inv.srcIn with h | ⟨-, hQ⟩
    · exact h
    · cases hQ
  rcases inv_cover inv hsrc n e hch with ⟨heV, -⟩ | ⟨q, hq, -⟩
  · exact inv.endNot e heV hend
  · cases hq

theorem inv_return_min {m : Maze} {src z : Pos} {dz : Nat} {rest : List (Pos × Nat)}
    {V : List Pos} {φ : Pos → Nat} (inv : BfsInv m src ((z, dz) :: rest) V φ)
    (hend : m.end_node = some z) : minReach m src dz := by
  refine ⟨⟨z, hend, inv.sound (z, dz) (List.mem_cons_self _ _)⟩, ?_⟩
  intro n hreach
  obtain ⟨e, hend2, hch⟩ := hreach
  have hez : e = z := by
    rw [hend] at hend2
    exact Option.some_inj.mp hend2.symm
  subst hez
  rcases inv.srcIn with hsrc | ⟨-, hQ⟩
  · rcases inv_cover inv hsrc n e hch with ⟨heV, -⟩ | ⟨q, hq, hqle⟩
    · exact absurd hend (inv.endNot e heV)
    · have hmin : dz ≤ q.2 := by
        rcases List.mem_cons.mp hq with hh | hh
        · rw [hh]
        · exact sorted_head_le inv.sorted q hh
      omega
  · have hdz : dz = 0 := by
      rw [List.cons.injEq] at hQ
      exact congrArg Prod.snd hQ.1
    omega

/-- Partial correctness of the BFS loop under the invariant: a returned
distance is the length of a shortest path from the query cell to the end, and
falling through to `inf` means no such path exists at any length. -/
theorem bfsLoop_spec {m : Maze} {src : Pos} :
    ∀ (f : Nat) (Q : List (Pos × Nat)) (V : List Pos) (φ : Pos → Nat), BfsInv m src Q V φ →
      (∀ d, bfsLoop m f Q V = some (some d) → minReach m src d) ∧
      (bfsLoop m f Q V = some none → ∀ n, ¬ reachesIn m src n) := by
  intro f
  induction f with
  | zero =>
    intro Q V φ inv
    cases Q with
    | nil =>
      constructor
      · intro d hd
        cases hd
      · intro _
        exact inv_empty_no_reach inv
    | cons e rest =>
      constructor
      · intro d hd
        cases hd
      · intro hd
        cases hd
  | succ f ih =>
    intro Q V φ inv
    cases Q with
    | nil =>
      constructor
      · intro d hd
        cases hd
      · intro _
        exact inv_empty_no_reach inv
    | cons e rest =>
      obtain ⟨z, dz⟩ := e
      by_cases hend : m.end_node = some z
      · have heq : bfsLoop m (f + 1) ((z, dz) :: rest) V = some (some dz) := by
          show (if m.end_node = some z then some (some dz) else _) = _
          rw [if_pos hend]
        constructor
        · intro d hd
          rw [heq] at hd
          have : dz = d := Option.some_inj.mp (Option.some_inj.mp hd)
          rw [← this]
          exact inv_return_min inv hend
        · intro hd
          rw [heq] at hd
          cases Option.some_inj.mp hd
      · by_cases hvis : z ∈ V
        · have heq : bfsLoop m (f + 1) ((z, dz) :: rest) V = bfsLoop m f rest V := by
            show (if m.end_node = some z then some (some dz)
              else if V.contains z then bfsLoop m f rest V else _) = _
            rw [if_neg hend, if_pos ((contains_iff_mem V z).mpr hvis)]
          rw [heq]
          exact ih rest V φ (inv_skip inv hvis)
        · have heq : bfsLoop m (f + 1) ((z, dz) :: rest) V =
              bfsLoop m f (rest ++ bfsNext m z.1 z.2 dz (z :: V)) (z :: V) := by
            show (if m.end_node = some z then some (some dz)
              else if V.contains z then bfsLoop m f rest V
              else bfsLoop m f (rest ++ bfsNext m z.1 z.2 dz (z :: V)) (z :: V)) = _
            rw [if_neg hend]
            rw [if_neg (fun hc => hvis ((contains_iff_mem V z).mp hc))]
          rw [heq]
          exact ih _ _ _ (inv_enqueue inv hvis hend)

theorem inv_init (m : Maze) (src : Pos) : BfsInv m src [(src, 0)] [] (fun _ => 0) := by
  refine ⟨?_, ?_, ?_, ?_, ?_, Or.inr ⟨rfl, rfl⟩, ?_⟩
  · intro e he
    have : e = (src, 0) := List.mem_singleton.mp he
    rw [this]
    exact rfl
  · exact List.sorted_singleton 0
  · intro e he e2 he2
    have h1 : e = (src, 0) := List.mem_singleton.mp he
    rw [h1]
    exact Nat.zero_le _
  · intro v hv
    cases hv
  · intro v hv
    cases hv
  · intro v hv
    cases hv

theorem enc_lt {m : Maze} {v : Pos} (hin : inBB m v = true) :
    v.1.toNat * m.cols + v.2.toNat < m.rows * m.cols := by
  unfold inBB at hin
  simp only [Bool.and_eq_true, decide_eq_true_eq] at hin
  obtain ⟨⟨⟨h1, h2⟩, h3⟩, h4⟩ := hin
  have hr : v.1.toNat < m.rows := by omega
  have hc : v.2.toNat < m.cols := by omega
  calc v.1.toNat * m.cols + v.2.toNat < v.1.toNat * m.cols + m.cols := by omega
    _ = (v.1.toNat + 1) * m.cols := by ring
    _ ≤ m.rows * m.cols := Nat.mul_le_mul_right _ hr

theorem enc_inj {m : Maze} {v w : Pos} (hv : inBB m v = true) (hw : inBB m w = true)
    (h : v.1.toNat * m.cols + v.2.toNat = w.1.toNat * m.cols + w.2.toNat) : v = w := by
  unfold inBB at hv hw
  simp only [Bool.and_eq_true, decide_eq_true_eq] at hv hw
  obtain ⟨⟨⟨hv1, hv2⟩, hv3⟩, hv4⟩ := hv
  obtain ⟨⟨⟨hw1, hw2⟩, hw3⟩, hw4⟩ := hw
  have hvc : v.2.toNat < m.cols := by omega
  have hwc : w.2.toNat < m.cols := by omega
  have hcols : 0 < m.cols := by omega
  have h1 : v.1.toNat = w.1.toNat := by
    by_cases hlt : v.1.toNat < w.1.toNat
    · exfalso
      have : (v.1.toNat + 1) * m.cols ≤ w.1.toNat * m.cols :=
        Nat.mul_le_mul_right _ hlt
      have : v.1.toNat * m.cols + m.cols ≤ w.1.toNat * m.cols := by
        calc v.1.toNat * m.cols + m.cols = (v.1.toNat + 1) * m.cols := by ring
          _ ≤ w.1.toNat * m.cols := Nat.mul_le_mul_right _ hlt
      omega
    · by_cases hgt : w.1.toNat < v.1.toNat
      · exfalso
        have : w.1.toNat * m.cols + m.cols ≤ v.1.toNat * m.cols := by
          calc w.1.toNat * m.cols + m.cols = (w.1.toNat + 1) * m.cols := by ring
            _ ≤ v.1.toNat * m.cols := Nat.mul_le_mul_right _ hgt
        omega
      · omega
  have h2 : v.2.toNat = w.2.toNat := by
    rw [h1] at h
    omega
  have e1 : v.1 = w.1 := by omega
  have e2 : v.2 = w.2 := by omega
  exact Prod.ext e1 e2

theorem nodup_inb_length {m : Maze} {V : List Pos} (hnd : V.Nodup)
    (hin : ∀ v ∈ V, inBB m v = true) : V.length ≤ m.rows * m.cols := by
  have hmap : (V.map (fun v => v.1.toNat * m.cols + v.2.toNat)).Nodup := by
    refine List.Nodup.map_on ?_ hnd
    intro x hx y hy hxy
    exact enc_inj (hin x hx) (hin y hy) hxy
  have hlt : ∀ n ∈ V.map (fun v => v.1.toNat * m.cols + v.2.toNat), n < m.rows * m.cols := by
    intro n hn
    obtain ⟨v, hv, hvn⟩ := List.mem_map.mp hn
    rw [← hvn]
    exact enc_lt (hin v hv)
  have hsub : (V.map (fun v => v.1.toNat * m.cols + v.2.toNat)).toFinset ⊆
      Finset.range (m.rows * m.cols) := by
    intro n hn
    rw [Finset.mem_range]
    exact hlt n (List.mem_toFinset.mp hn)
  have hcard := Finset.card_le_card hsub
  rw [Finset.card_range, List.toFinset_card_of_nodup hmap] at hcard
  rw [List.length_map] at hcard
  exact hcard

/-- The fuel supplied by `calculate_distance_to_end` never runs out: every
iteration pops one entry, an entry is only expanded once per cell, each
expansion pushes at most four entries, and all involved cells are in bounds. -/
theorem bfsLoop_no_fuel_exhaustion {m : Maze} :
    ∀ (f : Nat) (Q : List (Pos × Nat)) (V : List Pos), V.Nodup →
      (∀ v ∈ V, inBB m v = true) → (∀ e ∈ Q, inBB m e.1 = true) →
      Q.length + 5 * (m.rows * m.cols - V.length) < f →
      bfsLoop m f Q V ≠ none := by
  intro f
  induction f with
  | zero =>
    intro Q V hnd hinV hinQ hfuel
    omega
  | succ f ih =>
    intro Q V hnd hinV hinQ hfuel
    cases Q with
    | nil =>
      intro hc
      cases hc
    | cons e rest =>
      obtain ⟨z, dz⟩ := e
      show (if m.end_node = some z then some (some dz)
        else if V.contains z then bfsLoop m f rest V
        else bfsLoop m f (rest ++ bfsNext m z.1 z.2 dz (z :: V)) (z :: V)) ≠ none
      by_cases hend : m.end_node = some z
      · rw [if_pos hend]
        intro hc
        cases hc
      · rw [if_neg hend]
        by_cases hvis : z ∈ V
        · rw [if_pos ((contains_iff_mem V z).mpr hvis)]
          refine ih rest V hnd hinV (fun e2 he2 => hinQ e2 (List.mem_cons_of_mem _ he2)) ?_
          have : ((z, dz) :: rest).length = rest.length + 1 := rfl
          omega
        · rw [if_neg (fun hc => hvis ((contains_iff_mem V z).mp hc))]
          have hzin : inBB m z = true := hinQ (z, dz) (List.mem_cons_self _ _)
          have hnd2 : (z :: V).Nodup := List.nodup_cons.mpr ⟨hvis, hnd⟩
          have hinV2 : ∀ v ∈ z :: V, inBB m v = true := by
            intro v hv
            rcases List.mem_cons.mp hv with hh | hh
            · rw [hh]
              exact hzin
            · exact hinV v hh
          have hlenV2 : (z :: V).length ≤ m.rows * m.cols := nodup_inb_length hnd2 hinV2
          have hnewlen : (bfsNext m z.1 z.2 dz (z :: V)).length ≤ 4 := by
            have := List.length_filterMap_le (fun d : Pos =>
              if inBB m (z.1 + d.1, z.2 + d.2) &&
                  (nodeAt m (z.1 + d.1, z.2 + d.2)).traversable &&
                  !((z :: V).contains (z.1 + d.1, z.2 + d.2)) then
                some ((z.1 + d.1, z.2 + d.2), dz + 1)
              else none) dirList
            exact this
          refine ih _ _ hnd2 hinV2 ?_ ?_
          · intro e2 he2
            rcases List.mem_append.mp he2 with hh | hh
            · exact hinQ e2 (List.mem_cons_of_mem _ hh)
            · exact okCellB_inBB (mem_bfsNext.mp hh).1.2
          · rw [List.length_append]
            have hql : ((z, dz) :: rest).length = rest.length + 1 := rfl
            have hvl : (z :: V).length = V.length + 1 := rfl
            omega

theorem calc_spec {m : Maze} {p : Pos} (hin : inBB m p = true) :
    (∀ d, calculate_distance_to_end m p.1 p.2 = some d ↔ minReach m p d) ∧
    (calculate_distance_to_end m p.1 p.2 = none ↔ ∀ n, ¬ reachesIn m p n) := by
  have hfuel : bfsLoop m (5 * m.rows * m.cols + 2) [(p, 0)] [] ≠ none := by
    refine bfsLoop_no_fuel_exhaustion _ _ _ List.nodup_nil (by intro v hv; cases hv) ?_ ?_
    · intro e he
      have : e = (p, 0) := List.mem_singleton.mp he
      rw [this]
      exact hin
    · show [(p, 0)].length + 5 * (m.rows * m.cols - [].length) < 5 * m.rows * m.cols + 2
      rw [Nat.mul_assoc]
      have h1 : ([(p, 0)] : List (Pos × Nat)).length = 1 := rfl
      have h2 : ([] : List Pos).length = 0 := rfl
      omega
  have hspec := bfsLoop_spec (5 * m.rows * m.cols + 2) [(p, 0)] [] (fun _ => 0) (inv_init m p)
  cases hb : bfsLoop m (5 * m.rows * m.cols + 2) [(p, 0)] [] with
  | none => exact absurd hb hfuel
  | some r =>
    have hcalc : calculate_distance_to_end m p.1 p.2 = r := by
      unfold calculate_distance_to_end
      rw [hb]
    cases r with
    | none =>
      have hno := hspec.2 hb
      constructor
      · intro d
        rw [hcalc]
        constructor
        · intro hd
          cases hd
        · intro hmr
          exact absurd hmr.1 (hno d)
      · rw [hcalc]
        exact ⟨fun _ => hno, fun _ => rfl⟩
    | some d0 =>
      have hmr0 := hspec.1 d0 hb
      constructor
      · intro d
        rw [hcalc]
        constructor
        · intro hd
          have : d0 = d := Option.some_inj.mp hd
          rw [← this]
          exact hmr0
        · intro hmr
          have h1 := hmr.2 d0 hmr0.1
          have h2 := hmr0.2 d hmr.1
          have : d = d0 := le_antisymm h1 h2
          rw [this]
      · rw [hcalc]
        constructor
        · intro hd
          cases hd
        · intro hno
          exact absurd hmr0.1 (hno d0)

/-- C3: for every grid and every in-bounds cell `(row, col)`,
`calculate_distance_to_end` returns exactly the length of a shortest
4-directionally-adjacent path through traversable cells from `(row, col)` to
the grid's recorded end position, and returns `none` (the `float('inf')`
sentinel) precisely when no such path of any length exists.  Moreover the
result is invariant under arbitrary changes of the per-cell solving flags
(`visited`, `is_start`, `is_end`): the visited set the BFS uses is local to
the query, so the distance depends only on dimensions, traversability and the
recorded end position — and being a pure function of those, the call reads and
changes no `visited` flag. -/
theorem distance_oracle_correct (m : Maze) (p : Pos) (hin : inBB m p = true) :
    (∀ d, calculate_distance_to_end m p.1 p.2 = some d ↔ minReach m p d) ∧
    (calculate_distance_to_end m p.1 p.2 = none ↔ ∀ n, ¬ reachesIn m p n) ∧
    (∀ m2, EqTrav m m2 →
      calculate_distance_to_end m2 p.1 p.2 = calculate_distance_to_end m p.1 p.2) :=
  ⟨(calc_spec hin).1, (calc_spec hin).2, fun m2 h => (calc_congr h p.1 p.2).symm⟩

/-- Witness for `distance_oracle_correct` on the 5×5 ring maze at `(1, 1)`. -/
theorem distance_oracle_witness :
    inBB m5 (1, 1) = true ∧
      ((∀ d, calculate_distance_to_end m5 1 1 = some d ↔ minReach m5 (1, 1) d) ∧
        (calculate_distance_to_end m5 1 1 = none ↔ ∀ n, ¬ reachesIn m5 (1, 1) n) ∧
        (∀ m2, EqTrav m5 m2 →
          calculate_distance_to_end m2 1 1 = calculate_distance_to_end m5 1 1)) :=
  ⟨by decide, distance_oracle_correct m5 (1, 1) (by decide)⟩

/-! ### The greedy step strictly decreases the distance to the end -/

theorem minReach_succ {m : Maze} {p : Pos} {D : Nat} (h : minReach m p (D + 1)) :
    ∃ q, okStep m p q ∧ minReach m q D := by
  obtain ⟨⟨e, hend, hch⟩, hmin⟩ := h
  obtain ⟨q, hstep, hch2⟩ := hch
  refine ⟨q, hstep, ⟨e, hend, hch2⟩, ?_⟩
  intro n hreach
  by_cases hlt : n < D
  · exfalso
    have := hmin (n + 1) (reach_succ_of_step hstep hreach)
    omega
  · omega

theorem minReach_nb_ge {m : Maze} {p q : Pos} {D n : Nat} (hp : minReach m p D)
    (hstep : okStep m p q) (hq : reachesIn m q n) : D ≤ n + 1 :=
  hp.2 (n + 1) (reach_succ_of_step hstep hq)

theorem minReach_unique {m : Maze} {p : Pos} {a b : Nat} (ha : minReach m p a)
    (hb : minReach m p b) : a = b :=
  le_antisymm (ha.2 b hb.1) (hb.2 a ha.1)

theorem exists_minReach_of_le {m : Maze} :
    ∀ (j : Nat) (p : Pos), inBB m p = true → minReach m p j →
      ∀ k, k ≤ j → ∃ z, inBB m z = true ∧ minReach m z k := by
  intro j
  induction j with
  | zero =>
    intro p hin hmr k hk
    have : k = 0 := Nat.le_zero.mp hk
    rw [this]
    exact ⟨p, hin, hmr⟩
  | succ j ih =>
    intro p hin hmr k hk
    by_cases hkj : k = j + 1
    · rw [hkj]
      exact ⟨p, hin, hmr⟩
    · obtain ⟨q, hstep, hmrq⟩ := minReach_succ hmr
      have hqin : inBB m q = true := okCellB_inBB hstep.2
      exact ih q hqin hmrq k (by omega)

/-- A shortest distance is smaller than the number of grid cells: the cells at
distances `0, 1, …, D` are pairwise distinct in-bounds cells. -/
theorem minReach_lt_cells {m : Maze} {p : Pos} {D : Nat} (hin : inBB m p = true)
    (h : minReach m p D) : D < m.rows * m.cols := by
  have hex : ∀ k, k ≤ D → ∃ z, inBB m z = true ∧ minReach m z k :=
    exists_minReach_of_le D p hin h
  have hex2 : ∀ i : Fin (D + 1), ∃ z, inBB m z = true ∧ minReach m z (i : Nat) :=
    fun i => hex i (by omega)
  classical
  let f : Fin (D + 1) → Pos := fun i => Classical.choose (hex2 i)
  have hf : ∀ i, inBB m (f i) = true ∧ minReach m (f i) (i : Nat) :=
    fun i => Classical.choose_spec (hex2 i)
  let g : Fin (D + 1) → Fin (m.rows * m.cols) := fun i =>
    ⟨(f i).1.toNat * m.cols + (f i).2.toNat, enc_lt (hf i).1⟩
  have hginj : Function.Injective g := by
    intro i j hij
    have henc : (f i).1.toNat * m.cols + (f i).2.toNat =
        (f j).1.toNat * m.cols + (f j).2.toNat := congrArg Fin.val hij
    have hfij : f i = f j := enc_inj (hf i).1 (hf j).1 henc
    have : (i : Nat) = (j : Nat) := by
      have h1 := (hf i).2
      have h2 := (hf j).2
      rw [hfij] at h1
      exact minReach_unique h1 h2
    exact Fin.ext this
  have := Fintype.card_le_of_injective g hginj
  simp only [Fintype.card_fin] at this
  omega

theorem optLe_some_iff {c : Nat} {b : Option Nat} :
    optLe (some c) b = true ↔ ∀ n, b = some n → c ≤ n := by
  cases b with
  | none =>
    simp [optLe]
  | some v =>
    simp [optLe]

theorem listMin_eq_some {δ : Pos → Option Nat} {l : List Pos} {c : Nat}
    (hex : ∃ x ∈ l, δ x = some c) (hlb : ∀ x ∈ l, optLe (some c) (δ x) = true) :
    listMin δ l = some c := by
  obtain ⟨x0, hx0, hδx0⟩ := hex
  cases hmin : listMin δ l with
  | none =>
    rw [listMin_eq_none_iff] at hmin
    rw [hmin x0 hx0] at hδx0
    cases hδx0
  | some v =>
    obtain ⟨y, hy, hδy⟩ := listMin_mem δ l hmin
    have h1 : c ≤ v := by
      have := hlb y hy
      rw [hδy] at this
      exact (optLe_some_iff.mp this) v rfl
    have h2 : v ≤ c := by
      have := listMin_le δ l x0 hx0
      rw [hmin, hδx0] at this
      exact (optLe_some_iff.mp this) c rfl
    have : v = c := by omega
    rw [this]

theorem runSolve_mono_eq : ∀ (k k2 : Nat) (s : SState) (r : Except PyErr Unit),
    k ≤ k2 → runSolve k s = some r → runSolve k2 s = some r := by
  intro k
  induction k with
  | zero =>
    intro k2 s r hk h
    cases h
  | succ k ih =>
    intro k2 s r hk h
    cases k2 with
    | zero => omega
    | succ k2 =>
      show (match solve_step s with
        | (_, .ok true) => some (.ok ())
        | (s2, .ok false) => runSolve k2 s2
        | (_, .error e) => some (.error e)) = some r
      cases hstep : solve_step s with
      | mk s2 res =>
        have hprev : (match (s2, res) with
            | (_, .ok true) => some (Except.ok ())
            | (s3, .ok false) => runSolve k s3
            | (_, .error e) => some (.error e)) = some r := by
          have : runSolve (k + 1) s = (match (s2, res) with
              | (_, .ok true) => some (Except.ok ())
              | (s3, .ok false) => runSolve k s3
              | (_, .error e) => some (.error e)) := by
            show (match solve_step s with
              | (_, .ok true) => some (Except.ok ())
              | (s3, .ok false) => runSolve k s3
              | (_, .error e) => some (.error e)) = _
            rw [hstep]
          rw [← this]
          exact h
        cases res with
        | ok b =>
          cases b with
          | true =>
            exact hprev
          | false =>
            exact ih k2 s2 r (by omega) hprev
        | error e =>
          exact hprev

theorem runSolve_of_dist : ∀ (D : Nat) (s : SState) (p : Pos), WFB s.maze = true →
    s.current_pos = some p → inBB s.maze p = true → s.solver = "A*" →
    calculate_distance_to_end s.maze p.1 p.2 = some D →
    runSolve (D + 1) s = some (.ok ()) := by
  intro D
  induction D with
  | zero =>
    intro s p hwf hc hin hsol hdist
    have hmr : minReach s.maze p 0 := ((calc_spec hin).1 0).mp hdist
    obtain ⟨e, hend, hch⟩ := hmr.1
    have hpe : p = e := hch
    have hceq : s.current_pos = s.maze.end_node := by
      rw [hc, hend, hpe]
    show (match solve_step s with
      | (_, .ok true) => some (Except.ok ())
      | (s2, .ok false) => runSolve 0 s2
      | (_, .error e) => some (.error e)) = some (.ok ())
    rw [solve_step_end_eq s hceq]
  | succ D ih =>
    intro s p hwf hc hin hsol hdist
    have hmr : minReach s.maze p (D + 1) := ((calc_spec hin).1 (D + 1)).mp hdist
    have hne : s.current_pos ≠ s.maze.end_node := by
      intro hh
      rw [hc] at hh
      have hreach0 : reachesIn s.maze p 0 := ⟨p, hh.symm, rfl⟩
      have := hmr.2 0 hreach0
      omega
    obtain ⟨q0, hstep0, hmrq0⟩ := minReach_succ hmr
    have hq0in : inBB s.maze q0 = true := okCellB_inBB hstep0.2
    obtain ⟨⟨d0, hd0, hq0⟩, hok0⟩ := hstep0
    have hd0avail : d0 ∈ s.maze.get_available_directions p.1 p.2 := by
      refine avail_mem hd0 ?_ ?_
      · have hx : inBB s.maze (add_tuples p d0) = true := hq0 ▸ hq0in
        exact hx
      · have h2 : okCellB s.maze (add_tuples p d0) = true := hq0 ▸ hok0
        unfold okCellB at h2
        rw [Bool.and_eq_true] at h2
        exact h2.2
    have hδd0 : stepDist s.maze p d0 = some D := by
      rw [stepDist_def, ← hq0]
      exact ((calc_spec hq0in).1 D).mpr hmrq0
    have hlb : ∀ d ∈ s.maze.get_available_directions p.1 p.2,
        optLe (some D) (stepDist s.maze p d) = true := by
      intro d hd
      obtain ⟨hdl, hdin, hdtr⟩ := mem_avail hd
      rw [optLe_some_iff]
      intro n hn
      have hqin : inBB s.maze (add_tuples p d) = true := hdin
      have hmrq := ((calc_spec hqin).1 n).mp hn
      have hstep2 : okStep s.maze p (add_tuples p d) := by
        refine ⟨⟨d, hdl, rfl⟩, ?_⟩
        show (inBB s.maze (p.1 + d.1, p.2 + d.2) &&
          (nodeAt s.maze (p.1 + d.1, p.2 + d.2)).traversable) = true
        rw [hdin, hdtr]
        rfl
      have := minReach_nb_ge hmr hstep2 hmrq.1
      omega
    have hminlist : listMin (stepDist s.maze p)
        (s.maze.get_available_directions p.1 p.2) = some D :=
      listMin_eq_some ⟨d0, hd0avail, hδd0⟩ hlb
    obtain ⟨s1, hwf1, hc1, htrav, hsol1, -, hstep⟩ := solve_step_astar hwf hc hin hsol hne
    have hδ : stepDist s1.maze p = stepDist s.maze p := by
      funext d
      rw [stepDist_def, stepDist_def, calc_congr htrav]
    have havail : s1.maze.get_available_directions p.1 p.2 =
        s.maze.get_available_directions p.1 p.2 := (avail_congr htrav _ _).symm
    have hmin1 : listMin (stepDist s1.maze p)
        (s1.maze.get_available_directions p.1 p.2) = some D := by
      rw [hδ, havail]
      exact hminlist
    obtain ⟨mv, hfind, hAst⟩ := A_star_moves hwf1 hc1 hmin1
    rw [hδ, havail] at hfind
    have hmvmem : mv ∈ s.maze.get_available_directions p.1 p.2 :=
      List.mem_of_find?_eq_some hfind
    have hmvpred := List.find?_some hfind
    have hδmv : stepDist s.maze p mv = some D := eq_of_beq hmvpred
    obtain ⟨-, hmvin, -⟩ := mem_avail hmvmem
    have hsolve : solve_step s =
        ({ s1 with current_pos := some (add_tuples p mv) }, .ok false) := by
      rw [hstep, hAst]
    show (match solve_step s with
      | (_, .ok true) => some (Except.ok ())
      | (s2, .ok false) => runSolve (D + 1) s2
      | (_, .error e) => some (.error e)) = some (.ok ())
    rw [hsolve]
    refine ih { s1 with current_pos := some (add_tuples p mv) } (add_tuples p mv)
      hwf1 rfl ?_ ?_ ?_
    · show inBB s1.maze (add_tuples p mv) = true
      rw [← inBB_congr htrav.1 htrav.2.1]
      exact hmvin
    · show s1.solver = "A*"
      rw [hsol1]
      exact hsol
    · show calculate_distance_to_end s1.maze (add_tuples p mv).1 (add_tuples p mv).2 = some D
      rw [← calc_congr htrav, ← stepDist_def]
      exact hδmv

/-- Repeatedly calling `solve_step` on any well-formed maze state (strategy
`"A*"`, in-bounds current position) reaches an outcome — `true` returned or
the `noAvailableMove` error raised — within `rows * cols` calls. -/
theorem solver_terminates_general (s : SState) (p : Pos) (hwf : WFB s.maze = true)
    (hc : s.current_pos = some p) (hin : inBB s.maze p = true) (hsol : s.solver = "A*") :
    runSolve (s.maze.rows * s.maze.cols) s = some (.ok ()) ∨
      runSolve (s.maze.rows * s.maze.cols) s = some (.error .noAvailableMove) := by
  have hrc : 1 ≤ s.maze.rows * s.maze.cols := by
    unfold inBB at hin
    simp only [Bool.and_eq_true, decide_eq_true_eq] at hin
    obtain ⟨⟨⟨h1, h2⟩, h3⟩, h4⟩ := hin
    have hr : 0 < s.maze.rows := by omega
    have hcc : 0 < s.maze.cols := by omega
    exact Nat.mul_pos hr hcc
  cases hdist : calculate_distance_to_end s.maze p.1 p.2 with
  | some D =>
    have hmr := ((calc_spec hin).1 D).mp hdist
    have hDlt : D < s.maze.rows * s.maze.cols := minReach_lt_cells hin hmr
    exact Or.inl (runSolve_mono_eq (D + 1) _ s _ (by omega)
      (runSolve_of_dist D s p hwf hc hin hsol hdist))
  | none =>
    have hno := (calc_spec hin).2.mp hdist
    have hne : s.current_pos ≠ s.maze.end_node := by
      intro hh
      rw [hc] at hh
      exact hno 0 ⟨p, hh.symm, rfl⟩
    have hall : ∀ d ∈ s.maze.get_available_directions p.1 p.2,
        stepDist s.maze p d = none := by
      intro d hd
      obtain ⟨hdl, hdin, hdtr⟩ := mem_avail hd
      cases hq : stepDist s.maze p d with
      | none => rfl
      | some n =>
        exfalso
        have hqin : inBB s.maze (add_tuples p d) = true := hdin
        rw [stepDist_def] at hq
        have hmrq := ((calc_spec hqin).1 n).mp hq
        have hstep2 : okStep s.maze p (add_tuples p d) := by
          refine ⟨⟨d, hdl, rfl⟩, ?_⟩
          show (inBB s.maze (p.1 + d.1, p.2 + d.2) &&
            (nodeAt s.maze (p.1 + d.1, p.2 + d.2)).traversable) = true
          rw [hdin, hdtr]
          rfl
        exact hno (n + 1) (reach_succ_of_step hstep2 hmrq.1)
    obtain ⟨s1, hwf1, hc1, htrav, hsol1, -, hstep⟩ := solve_step_astar hwf hc hin hsol hne
    have hall1 : ∀ d ∈ s1.maze.get_available_directions p.1 p.2,
        stepDist s1.maze p d = none := by
      intro d hd
      rw [← avail_congr htrav] at hd
      rw [stepDist_def, ← calc_congr htrav]
      exact hall d hd
    have hsolve : solve_step s = (s1, .error .noAvailableMove) := by
      rw [hstep, A_star_none hwf1 hc1 hall1]
    obtain ⟨k, hk⟩ : ∃ k, s.maze.rows * s.maze.cols = k + 1 :=
      ⟨s.maze.rows * s.maze.cols - 1, by omega⟩
    rw [hk]
    refine Or.inr ?_
    show (match solve_step s with
      | (_, .ok true) => some (Except.ok ())
      | (s2, .ok false) => runSolve k s2
      | (_, .error e) => some (.error e)) = some (.error .noAvailableMove)
    rw [hsolve]

/-! ### Shape of the generated layout -/

theorem setCh_shape (g : List (List Char)) (y x : Nat) (ch : Char) :
    (setCh g y x ch).length = g.length ∧
    ∀ i, ((setCh g y x ch).get? i).map List.length = (g.get? i).map List.length := by
  constructor
  · exact List.length_set g y _
  · intro i
    by_cases hiy : i = y
    · subst hiy
      by_cases hl : i < g.length
      · obtain ⟨row, hrow⟩ : ∃ row, g.get? i = some row := by
          rw [List.get?_eq_get hl]
          exact ⟨_, rfl⟩
        unfold setCh
        rw [List.get?_set_eq_of_lt _ hl, hrow]
        simp only [Option.map_some', Option.getD_some]
        rw [List.length_set]
      · have h1 : g.get? i = none := List.get?_eq_none.mpr (by omega)
        have h2 : (setCh g i x ch).get? i = none := by
          refine List.get?_eq_none.mpr ?_
          unfold setCh
          rw [List.length_set]
          omega
        rw [h1, h2]
    · unfold setCh
      rw [List.get?_set_ne _ _ (fun hh => hiy hh.symm)]

theorem carveDirs_shape (σ : Nat → List (Int × Int)) (w h : Nat) :
    ∀ (f : Nat) (s : GState) (cx cy : Int) (ds : List (Int × Int)),
      (carveDirs σ w h f s cx cy ds).grid.length = s.grid.length ∧
      ∀ i, ((carveDirs σ w h f s cx cy ds).grid.get? i).map List.length =
        (s.grid.get? i).map List.length := by
  intro f
  induction f with
  | zero =>
    intro s cx cy ds
    exact ⟨rfl, fun i => rfl⟩
  | succ f ih =>
    intro s cx cy ds
    cases ds with
    | nil => exact ⟨rfl, fun i => rfl⟩
    | cons d ds =>
      obtain ⟨dx, dy⟩ := d
      simp only [carveDirs]
      by_cases hg : 0 ≤ cx + dx * 2 ∧ cx + dx * 2 < (w : Int) ∧ 0 ≤ cy + dy * 2 ∧
          cy + dy * 2 < (h : Int) ∧
          getCh s.grid (cy + dy * 2).toNat (cx + dx * 2).toNat = '#'
      · rw [if_pos hg]
        have h1 := setCh_shape s.grid (cy + dy).toNat (cx + dx).toNat ' '
        have h2 := setCh_shape (setCh s.grid (cy + dy).toNat (cx + dx).toNat ' ')
          (cy + dy * 2).toNat (cx + dx * 2).toNat ' '
        have h3 := ih ⟨setCh (setCh s.grid (cy + dy).toNat (cx + dx).toNat ' ')
            (cy + dy * 2).toNat (cx + dx * 2).toNat ' ', s.k + 1⟩
          (cx + dx * 2) (cy + dy * 2) (σ s.k)
        have h4 := ih (carveDirs σ w h f
            ⟨setCh (setCh s.grid (cy + dy).toNat (cx + dx).toNat ' ')
              (cy + dy * 2).toNat (cx + dx * 2).toNat ' ', s.k + 1⟩
            (cx + dx * 2) (cy + dy * 2) (σ s.k))
          cx cy ds
        constructor
        · rw [h4.1, h3.1]
          show (setCh _ _ _ ' ').length = _
          rw [h2.1, h1.1]
        · intro i
          rw [h4.2 i, h3.2 i]
          show ((setCh _ _ _ ' ').get? i).map List.length = _
          rw [h2.2 i, h1.2 i]
      · rw [if_neg hg]
        exact ih s cx cy ds

theorem generate_shape (w h : Nat) (σ : Nat → List (Int × Int)) :
    (MazeGenerator.generate w h σ).length = h ∧
    ∀ r ∈ MazeGenerator.generate w h σ, r.length = w := by
  have hcarve := carveDirs_shape σ w h (5 * w * h + 10)
    ⟨List.replicate h (List.replicate w '#'), 1⟩ 1 1 (σ 0)
  have hg2 := setCh_shape (carveDirs σ w h (5 * w * h + 10)
    ⟨List.replicate h (List.replicate w '#'), 1⟩ 1 1 (σ 0)).grid 1 1 'S'
  have hg3 := setCh_shape (setCh (carveDirs σ w h (5 * w * h + 10)
    ⟨List.replicate h (List.replicate w '#'), 1⟩ 1 1 (σ 0)).grid 1 1 'S') (h - 2) (w - 2) 'E'
  have hlen : (MazeGenerator.generate w h σ).length = h := by
    show (List.map String.mk _).length = h
    rw [List.length_map, hg3.1, hg2.1, hcarve.1, List.length_replicate]
  refine ⟨hlen, ?_⟩
  intro r hr
  obtain ⟨row, hrowmem, hrow⟩ := List.mem_map.mp hr
  obtain ⟨i, hi⟩ := List.mem_iff_get?.mp hrowmem
  have hchain := hg3.2 i
  rw [hg2.2 i, hcarve.2 i] at hchain
  have hilt : i < h := by
    have h1 : i < (setCh (setCh (carveDirs σ w h (5 * w * h + 10)
        ⟨List.replicate h (List.replicate w '#'), 1⟩ 1 1 (σ 0)).grid 1 1 'S')
        (h - 2) (w - 2) 'E').length := (List.get?_eq_some.mp hi).1
    rw [hg3.1, hg2.1, hcarve.1, List.length_replicate] at h1
    exact h1
  have hrep : (List.replicate h (List.replicate w '#')).get? i =
      some (List.replicate w '#') := by
    refine List.get?_eq_some.mpr ⟨by rw [List.length_replicate]; exact hilt, ?_⟩
    exact List.get_replicate _ _
  rw [hi, hrep] at hchain
  simp only [Option.map_some', Option.some_inj] at hchain
  rw [List.length_replicate] at hchain
  rw [← hrow]
  show row.length = w
  exact hchain

theorem inBB_of_bounds {m : Maze} {r c : Int} (h1 : 0 ≤ r) (h2 : r < (m.rows : Int))
    (h3 : 0 ≤ c) (h4 : c < (m.cols : Int)) : inBB m (r, c) = true := by
  unfold inBB
  simp only [Bool.and_eq_true, decide_eq_true_eq]
  exact ⟨⟨⟨h1, h2⟩, h3⟩, h4⟩

theorem WFB_init {layout : List String} {w : Nat} (hne : layout ≠ [])
    (hall : ∀ r ∈ layout, r.length = w) :
    WFB (Maze.init layout) = true ∧ (Maze.init layout).rows = layout.length ∧
      (Maze.init layout).cols = w := by
  cases layout with
  | nil => exact absurd rfl hne
  | cons a l =>
    have hcols : (Maze.init (a :: l)).cols = a.length := by
      simp only [Maze.init, Maze.create_maze, List.map_cons, List.length_cons, List.headI,
        List.length_map, gt_iff_lt, Nat.zero_lt_succ, if_true, ite_true]
      rfl
    have hcolw : (Maze.init (a :: l)).cols = w := by
      rw [hcols]
      exact hall a (List.mem_cons_self _ _)
    have hrows : (Maze.init (a :: l)).rows = (a :: l).length := by
      show (Maze.create_maze (a :: l)).length = _
      unfold Maze.create_maze
      rw [List.length_map]
    refine ⟨?_, hrows, hcolw⟩
    unfold WFB
    rw [Bool.and_eq_true]
    constructor
    · rw [beq_iff_eq]
      rfl
    · rw [List.all_eq_true]
      intro row hrow
      rw [beq_iff_eq]
      show row.length = (Maze.init (a :: l)).cols
      rw [hcolw]
      have hrow2 : row ∈ Maze.create_maze (a :: l) := hrow
      unfold Maze.create_maze at hrow2
      obtain ⟨r, hr, hrr⟩ := List.mem_map.mp hrow2
      rw [← hrr, List.length_map]
      exact hall r hr

theorem set_start_inb {m : Maze} (hwf : WFB m = true) {row col : Int}
    (hin : inBB m (row, col) = true) :
    ∃ m2, Maze.set_start m row col = some m2 ∧ m2.start_node = some (row, col) ∧
      m2.end_node = m.end_node ∧ m2.rows = m.rows ∧ m2.cols = m.cols ∧ WFB m2 = true := by
  obtain ⟨hri, hci, -⟩ := inBB_pyIdx hin
  obtain ⟨g2, hg2, -, -, hwf2, -⟩ := pyModify2D_resolved hwf hri hci
    (fun c => { c with is_start := true })
  have hinx : 0 ≤ row ∧ row < (m.rows : Int) ∧ 0 ≤ col ∧ col < (m.cols : Int) := by
    unfold inBB at hin
    simp only [Bool.and_eq_true, decide_eq_true_eq] at hin
    exact ⟨hin.1.1.1, hin.1.1.2, hin.1.2, hin.2⟩
  refine ⟨{ m with
              maze := g2
              start_node :=
                if 0 ≤ row ∧ row < (m.rows : Int) ∧ 0 ≤ col ∧ col < (m.cols : Int) then
                  some (row, col)
                else m.start_node },
    by rw [set_start_eq, hg2]; rfl, ?_, rfl, rfl, rfl, ?_⟩
  · show (if 0 ≤ row ∧ row < (m.rows : Int) ∧ 0 ≤ col ∧ col < (m.cols : Int) then
      some (row, col) else m.start_node) = some (row, col)
    rw [if_pos hinx]
  · exact hwf2

theorem set_end_inb {m : Maze} (hwf : WFB m = true) {row col : Int}
    (hin : inBB m (row, col) = true) :
    ∃ m2, Maze.set_end m row col = some m2 ∧ m2.end_node = some (row, col) ∧
      m2.start_node = m.start_node ∧ m2.rows = m.rows ∧ m2.cols = m.cols ∧
      WFB m2 = true := by
  obtain ⟨hri, hci, -⟩ := inBB_pyIdx hin
  obtain ⟨g2, hg2, -, -, hwf2, -⟩ := pyModify2D_resolved hwf hri hci
    (fun c => { c with is_end := true })
  have hinx : 0 ≤ row ∧ row < (m.rows : Int) ∧ 0 ≤ col ∧ col < (m.cols : Int) := by
    unfold inBB at hin
    simp only [Bool.and_eq_true, decide_eq_true_eq] at hin
    exact ⟨hin.1.1.1, hin.1.1.2, hin.1.2, hin.2⟩
  refine ⟨{ m with
              maze := g2
              end_node :=
                if 0 ≤ row ∧ row < (m.rows : Int) ∧ 0 ≤ col ∧ col < (m.cols : Int) then
                  some (row, col)
                else m.end_node },
    by rw [set_end_eq, hg2]; rfl, ?_, rfl, rfl, rfl, ?_⟩
  · show (if 0 ≤ row ∧ row < (m.rows : Int) ∧ 0 ≤ col ∧ col < (m.cols : Int) then
      some (row, col) else m.end_node) = some (row, col)
    rw [if_pos hinx]
  · exact hwf2

/-- C1: for every width and height at least 2 and *every* outcome of the
random shuffles, building the maze exactly as `main` does (generate the
layout, wrap it in a `Maze`, set start `(1, 1)` and end `(h-2, w-2)`) and then
calling `solve_step` repeatedly from the start reaches an outcome within at
most `rows * cols` calls: either some call returns `true` or some call raises
the `noAvailableMove` error; the call sequence never runs for `rows * cols`
calls without one of these outcomes.  (The proof goes through
`solver_terminates_general`, valid for every well-formed maze: the BFS
distance of the solver's cell strictly decreases by one at every successful
step, and a cell with no finite-distance neighbor raises immediately.) -/
theorem solver_terminates_on_generated_maze (w h : Nat) (σ : Nat → List (Int × Int))
    (hw : 2 ≤ w) (hh : 2 ≤ h) :
    ∃ m1 m2 : Maze,
      (Maze.init (MazeGenerator.generate w h σ)).set_start 1 1 = some m1 ∧
      m1.set_end ((h : Int) - 2) ((w : Int) - 2) = some m2 ∧
      m2.rows = h ∧ m2.cols = w ∧
      (runSolve (m2.rows * m2.cols) (MazeSolver.init m2 "A*") = some (.ok ()) ∨
        runSolve (m2.rows * m2.cols) (MazeSolver.init m2 "A*") =
          some (.error .noAvailableMove)) := by
  obtain ⟨hlen, hrows⟩ := generate_shape w h σ
  have hne : MazeGenerator.generate w h σ ≠ [] := by
    intro hc
    rw [hc] at hlen
    have : (0 : Nat) = h := hlen
    omega
  obtain ⟨hwf0, hrows0, hcols0⟩ := WFB_init hne hrows
  have hrowsh : (Maze.init (MazeGenerator.generate w h σ)).rows = h := by
    rw [hrows0, hlen]
  have hin1 : inBB (Maze.init (MazeGenerator.generate w h σ)) (1, 1) = true := by
    refine inBB_of_bounds (by omega) ?_ (by omega) ?_
    · rw [hrowsh]
      omega
    · rw [hcols0]
      omega
  obtain ⟨m1, hm1, hstart1, hend1, hrows1, hcols1, hwf1⟩ := set_start_inb hwf0 hin1
  have hin2 : inBB m1 ((h : Int) - 2, (w : Int) - 2) = true := by
    refine inBB_of_bounds ?_ ?_ ?_ ?_
    · omega
    · rw [hrows1, hrowsh]
      omega
    · omega
    · rw [hcols1, hcols0]
      omega
  obtain ⟨m2, hm2, hend2, hstart2, hrows2, hcols2, hwf2⟩ := set_end_inb hwf1 hin2
  refine ⟨m1, m2, hm1, hm2, by rw [hrows2, hrows1, hrowsh], by rw [hcols2, hcols1, hcols0], ?_⟩
  refine solver_terminates_general (MazeSolver.init m2 "A*") (1, 1) hwf2 ?_ ?_ rfl
  · show m2.start_node = some (1, 1)
    rw [hstart2, hstart1]
  · show inBB m2 (1, 1) = true
    refine inBB_of_bounds (by omega) ?_ (by omega) ?_
    · rw [hrows2, hrows1, hrowsh]
      omega
    · rw [hcols2, hcols1, hcols0]
      omega

/-- Witness for `solver_terminates_on_generated_maze` at the concrete size
6×6 with the identity shuffle outcome. -/
theorem solver_terminates_witness :
    (2 ≤ 6 ∧ 2 ≤ 6) ∧
      ∃ m1 m2 : Maze,
        (Maze.init (MazeGenerator.generate 6 6 sigId)).set_start 1 1 = some m1 ∧
        m1.set_end ((6 : Int) - 2) ((6 : Int) - 2) = some m2 ∧
        m2.rows = 6 ∧ m2.cols = 6 ∧
        (runSolve (m2.rows * m2.cols) (MazeSolver.init m2 "A*") = some (.ok ()) ∨
          runSolve (m2.rows * m2.cols) (MazeSolver.init m2 "A*") =
            some (.error .noAvailableMove)) :=
  ⟨⟨by decide, by decide⟩,
    solver_terminates_on_generated_maze 6 6 sigId (by decide) (by decide)⟩
